import Mathlib

/-!
Verification of the ontology consolidation / entity-deduplication engine of the
hmi_ontology repository, as implemented in
"2nd ontology/src/strategic-ontology-merger.py" (class StrategicOntologyMerger)
and "adaptive_hmi_ontology_ontogenia/src/improved_ontology_merger.py"
(class ImprovedOntologyMerger).

The RDF layer (rdflib) is modelled shallowly: a term is a URI reference, a
blank node, or a literal (lexical value plus optional language tag); a graph is
a finite set of triples, represented as a duplicate-free list in insertion
order (rdflib stores a set of triples; `Graph.add` is a no-op on an existing
triple).  Python dicts are association lists in insertion order (dict update
keeps the position of an existing key).  Python sets destroy insertion order;
wherever the source converts a set to a list we instantiate one concrete
iteration order (first-seen order) and, where a claim depends on that order, we
make the order an explicit argument.
-/

set_option maxRecDepth 4096

/-- An RDF term: URI reference, blank node, or literal (value, language tag). -/
inductive Term where
  | uri : String → Term
  | bnode : String → Term
  | lit : String → Option String → Term
deriving DecidableEq, Repr

/-- A statement (subject, predicate, object). -/
structure Triple where
  subj : Term
  pred : Term
  obj : Term
deriving DecidableEq, Repr

/-- A graph is a finite set of triples, kept as a duplicate-free list in
insertion order. -/
abbrev Graph := List Triple

/-- rdflib Graph.add: inserting an existing triple is a no-op (set semantics). -/
def Graph.add (g : Graph) (t : Triple) : Graph :=
  if t ∈ g then g else g ++ [t]

/-- rdflib Graph.remove of one concrete triple. -/
def Graph.removeT (g : Graph) (t : Triple) : Graph :=
  g.filter (fun u => !(decide (u = t)))

/-- Subjects of all triples with the given predicate and object, in graph
order (rdflib `graph.subjects(p, o)`). -/
def Graph.subjectsPO (g : Graph) (p o : Term) : List Term :=
  (g.filter (fun t => decide (t.pred = p ∧ t.obj = o))).map Triple.subj

/-- True for URI references (`isinstance(x, URIRef)`). -/
def Term.isUri : Term → Bool
  | Term.uri _ => true
  | _ => false

/-- True for literals (`isinstance(x, Literal)`). -/
def Term.isLit : Term → Bool
  | Term.lit _ _ => true
  | _ => false

/-- Python `str(term)`: for a literal its lexical value, for a URI/BNode its
identifier. -/
def termStr : Term → String
  | Term.uri s => s
  | Term.bnode s => s
  | Term.lit v _ => v

/-- Python truthiness of an rdflib term (URIRef/BNode/Literal are str
subclasses: the empty string is falsy). -/
def termTruthy : Term → Bool
  | Term.uri s => decide (s ≠ "")
  | Term.bnode s => decide (s ≠ "")
  | Term.lit v _ => decide (v ≠ "")

/-- RDF vocabulary constants used by the mergers. -/
def rdfType : Term := Term.uri "http://www.w3.org/1999/02/22-rdf-syntax-ns#type"

def rdfsLabel : Term := Term.uri "http://www.w3.org/2000/01/rdf-schema#label"

def rdfsComment : Term := Term.uri "http://www.w3.org/2000/01/rdf-schema#comment"

def owlClass : Term := Term.uri "http://www.w3.org/2002/07/owl#Class"

def owlObjectProperty : Term := Term.uri "http://www.w3.org/2002/07/owl#ObjectProperty"

def owlDatatypeProperty : Term := Term.uri "http://www.w3.org/2002/07/owl#DatatypeProperty"

def owlInverseOf : Term := Term.uri "http://www.w3.org/2002/07/owl#inverseOf"

def owlOntology : Term := Term.uri "http://www.w3.org/2002/07/owl#Ontology"

/-- Association list with Python-dict semantics (insertion order; updating an
existing key keeps its position). -/
abbrev TMap := List (Term × Term)

/-- Python `d[k]` / `d.get(k)`. -/
def alistLookup (m : TMap) (k : Term) : Option Term :=
  match m with
  | [] => none
  | (k', v) :: rest => if k' = k then some v else alistLookup rest k

/-- Python `d[k] = v`. -/
def alistInsert (m : TMap) (k v : Term) : TMap :=
  match m with
  | [] => [(k, v)]
  | (k', v') :: rest => if k' = k then (k, v) :: rest else (k', v') :: alistInsert rest k v

/-- The keys of an association list. -/
def alistKeys (m : TMap) : List Term := m.map Prod.fst

/-- The values of an association list. -/
def alistVals (m : TMap) : List Term := m.map Prod.snd

/-- Python `d[k]` for a string-keyed dict. -/
def sdictLookup {α : Type} (m : List (String × α)) (k : String) : Option α :=
  match m with
  | [] => none
  | (k', v) :: rest => if k' = k then some v else sdictLookup rest k

/-- Python `d[k] = v` for a string-keyed dict. -/
def sdictInsert {α : Type} (m : List (String × α)) (k : String) (v : α) :
    List (String × α) :=
  match m with
  | [] => [(k, v)]
  | (k', v') :: rest =>
    if k' = k then (k, v) :: rest else (k', v') :: sdictInsert rest k v

/-- Python `d.setdefault(k, []).append(v)` for a dict of buckets. -/
def bucketAdd {α : Type} (m : List (String × List α)) (k : String) (v : α) :
    List (String × List α) :=
  match m with
  | [] => [(k, [v])]
  | (k', vs) :: rest =>
    if k' = k then (k', vs ++ [v]) :: rest else (k', vs) :: bucketAdd rest k v

/-- The first triple (u, p, o) of the graph whose object is a Literal, giving
str(o): the shared label/comment lookup pattern of both mergers. -/
def firstLitObj (g : Graph) (u p : Term) : Option String :=
  match g.find? (fun t => decide (t.subj = u) && decide (t.pred = p) && t.obj.isLit) with
  | some t => some (termStr t.obj)
  | none => none

/-- The accumulator loop of dedupFirst. -/
def dedupFirstAux [DecidableEq α] (seen : List α) : List α → List α
  | [] => []
  | x :: t => if x ∈ seen then dedupFirstAux seen t else x :: dedupFirstAux (x :: seen) t

/-- Deduplication keeping first occurrences (our fixed linearization of a
Python set built by insertion). -/
def dedupFirst [DecidableEq α] (l : List α) : List α := dedupFirstAux [] l

/-- The ASCII whitespace characters, the common ASCII content of the Python
regex backslash-s class and of the default str.strip set. -/
def pySpace (c : Char) : Bool :=
  decide (c = ' ') || decide (c = '\t') || decide (c = '\n') || decide (c = '\r') ||
  decide (c = '\x0b') || decide (c = '\x0c')

/-- Python `s.strip()` on a character list. -/
def stripEnds (l : List Char) : List Char :=
  ((l.dropWhile pySpace).reverse.dropWhile pySpace).reverse

/-- ASCII lowercasing of one character, as Python str.lower acts on ASCII
input (all data handled by the repository is ASCII). -/
def lowChar (c : Char) : Char :=
  match c with
  | 'A' => 'a' | 'B' => 'b' | 'C' => 'c' | 'D' => 'd' | 'E' => 'e' | 'F' => 'f'
  | 'G' => 'g' | 'H' => 'h' | 'I' => 'i' | 'J' => 'j' | 'K' => 'k' | 'L' => 'l'
  | 'M' => 'm' | 'N' => 'n' | 'O' => 'o' | 'P' => 'p' | 'Q' => 'q' | 'R' => 'r'
  | 'S' => 's' | 'T' => 't' | 'U' => 'u' | 'V' => 'v' | 'W' => 'w' | 'X' => 'x'
  | 'Y' => 'y' | 'Z' => 'z'
  | c => c

/-- Lowercase a character list. -/
def lowerL (l : List Char) : List Char := l.map lowChar

/-- Python `s.lower()`. -/
def lowerS (s : String) : String := String.mk (lowerL s.toList)

/-- `leadsWith pat l`: l starts with pat. -/
def leadsWith : List Char → List Char → Bool
  | [], _ => true
  | _ :: _, [] => false
  | c :: cs, d :: ds => decide (c = d) && leadsWith cs ds

/-- Python `pat in hay` (substring containment). -/
def hasSub (hay pat : List Char) : Bool :=
  match hay with
  | [] => decide (pat = [])
  | _ :: t => leadsWith pat hay || hasSub t pat

/-- Python `hay.replace(pat, sub)`: replace all non-overlapping occurrences,
left to right. -/
def replAll (pat sub : List Char) : List Char → List Char
  | [] => []
  | c :: t =>
    if pat ≠ [] ∧ leadsWith pat (c :: t) = true then
      sub ++ replAll pat sub (List.drop (pat.length - 1) t)
    else
      c :: replAll pat sub t
termination_by l => l.length
decreasing_by
  · simp only [List.length_cons, List.length_drop]
    omega
  · simp only [List.length_cons]
    omega

/-- Python `s.split(c)[-1]` for c = the hash character: the part after the
last hash, or the whole string when none occurs. -/
def lastSeg (s : String) : String :=
  String.mk ((s.toList.reverse.takeWhile (fun c => decide (c ≠ '#'))).reverse)

/-- Python `base_uri.rstrip(hash)`: drop all trailing hash characters. -/
def rstripHash (s : String) : String :=
  String.mk (s.toList.reverse.dropWhile (fun c => decide (c = '#'))).reverse

namespace Strategic

/-- The stop-prefix tokens of `normalize_name`, in the alternation order of
the source regex (their first letters are pairwise distinct, so at most one
matches a given name). -/
def leadToks : List (List Char) :=
  ["has".toList, "is".toList, "of".toList, "to".toList, "for".toList,
   "with".toList, "by".toList]

/-- The stop-suffix tokens of `normalize_name` (none is a suffix of another,
so at most one matches a given name). -/
def tailToks : List (List Char) :=
  ["state".toList, "type".toList, "system".toList, "method".toList,
   "property".toList]

/-- One application of the source regex sub on the leading token: strip the
first matching stop token and an optional following underscore. -/
def dropLeadTok (l : List Char) : List Char :=
  match leadToks.find? (fun t => leadsWith t l) with
  | some t =>
    match l.drop t.length with
    | '_' :: r => r
    | r => r
  | none => l

/-- One application of the source regex sub on the trailing token: strip the
matching stop suffix and an optional preceding underscore. -/
def dropTailTok (l : List Char) : List Char :=
  match tailToks.find? (fun t => leadsWith t.reverse l.reverse) with
  | some t =>
    match (l.take (l.length - t.length)).reverse with
    | '_' :: r => r.reverse
    | r => r.reverse
  | none => l

/-- StrategicOntologyMerger.normalize_name: lowercase, strip one leading stop
token (with optional underscore), strip one trailing stop token (with optional
underscore), strip whitespace. -/
def normalize_name (name : String) : String :=
  if name = "" then ""
  else String.mk (stripEnds (dropTailTok (dropLeadTok (lowerL name.toList))))

/-- StrategicOntologyMerger.get_label: the first rdfs:label triple of the
subject whose object is a Literal, if any. -/
def get_label (g : Graph) (u : Term) : Option String :=
  firstLitObj g u rdfsLabel

/-- StrategicOntologyMerger.get_comment: the first rdfs:comment triple of the
subject whose object is a Literal, if any. -/
def get_comment (g : Graph) (u : Term) : Option String :=
  firstLitObj g u rdfsComment

/-- Python `label or fallback` (an absent or empty label falls back to the
last path segment of the identifier). -/
def displayOr (label : Option String) (u : Term) : String :=
  match label with
  | some s => if s = "" then lastSeg (termStr u) else s
  | none => lastSeg (termStr u)

/-- An entry of the `all_classes` dict: (class_uri, graph index, label). -/
structure ClassEntry where
  uri : Term
  gi : Nat
  label : Option String
deriving DecidableEq, Repr

/-- The `all_classes` accumulation loop of find_similar_classes. -/
def collect_classes_aux (i : Nat) (gs : List Graph)
    (acc : List (String × List ClassEntry)) : List (String × List ClassEntry) :=
  match gs with
  | [] => acc
  | g :: rest =>
    let subs := (Graph.subjectsPO g rdfType owlClass).filter Term.isUri
    let acc := subs.foldl (fun m u =>
      bucketAdd m (normalize_name (displayOr (get_label g u) u)) ⟨u, i, get_label g u⟩) acc
    collect_classes_aux (i + 1) rest acc

/-- StrategicOntologyMerger.find_similar_classes: group classes by normalized
display name and keep the groups with more than one (not necessarily
distinct) entry.  Each group member set is linearized in first-seen order. -/
def find_similar_classes (gs : List Graph) : List (String × List Term) :=
  ((collect_classes_aux 0 gs []).filter (fun kv => decide (1 < kv.2.length))).map
    (fun kv => (kv.1, dedupFirst (kv.2.map ClassEntry.uri)))

/-- An entry of the `all_properties` dict:
(prop_uri, graph index, label, prop_name). -/
structure PropEntry where
  uri : Term
  gi : Nat
  label : Option String
  prop_name : String
deriving DecidableEq, Repr

/-- The `all_properties` accumulation loop of find_similar_properties.  The
source iterates the union of the object-property and datatype-property subject
sets of each graph; we linearize that set as the deduplicated concatenation. -/
def collect_props_aux (i : Nat) (gs : List Graph)
    (acc : List (String × List PropEntry)) : List (String × List PropEntry) :=
  match gs with
  | [] => acc
  | g :: rest =>
    let subs := dedupFirst
      ((Graph.subjectsPO g rdfType owlObjectProperty ++
        Graph.subjectsPO g rdfType owlDatatypeProperty).filter Term.isUri)
    let acc := subs.foldl (fun m u =>
      bucketAdd m (normalize_name (displayOr (get_label g u) u))
        ⟨u, i, get_label g u, displayOr (get_label g u) u⟩) acc
    collect_props_aux (i + 1) rest acc

/-- The fixed forward/backward token table of find_inverse_candidates, with
the exact (mixed-case) spelling of the source. -/
def inverse_patterns : List (String × String) :=
  [("has", "isOf"), ("detects", "detectedBy"), ("observes", "observedBy"),
   ("activates", "activatedBy"), ("responds", "respondsTo"),
   ("signals", "signaledBy"), ("indicates", "indicatedBy"),
   ("classifies", "classifiedBy"), ("analyzes", "analyzedBy")]

/-- All entries of the `all_properties` dict in iteration order. -/
def allEntries (m : List (String × List PropEntry)) : List PropEntry :=
  (m.map Prod.snd).flatten

/-- The body of the pattern loop of find_inverse_candidates for one
forward/backward pair: the source tests `forward in prop_lower`, else
`backward in prop_lower`, and collects every property whose (lowercased) raw
name contains the substituted name. -/
def pairCandidates (propLower : List Char) (fb : String × String)
    (m : List (String × List PropEntry)) : List PropEntry :=
  if hasSub propLower fb.1.toList then
    (allEntries m).filter
      (fun e => hasSub (lowerL e.prop_name.toList) (replAll fb.1.toList fb.2.toList propLower))
  else if hasSub propLower fb.2.toList then
    (allEntries m).filter
      (fun e => hasSub (lowerL e.prop_name.toList) (replAll fb.2.toList fb.1.toList propLower))
  else []

/-- StrategicOntologyMerger.find_inverse_candidates. -/
def find_inverse_candidates (prop_name : String)
    (m : List (String × List PropEntry)) : List PropEntry :=
  (inverse_patterns.map (fun fb => pairCandidates (lowerL prop_name.toList) fb m)).flatten

/-- StrategicOntologyMerger.find_similar_properties: the duplicate groups of
properties, plus the updated `inverse_properties` dict (for every entry, every
inverse candidate overwrites the entry's slot, so the last candidate wins). -/
def find_similar_properties (gs : List Graph) (inv0 : TMap) :
    List (String × List Term) × TMap :=
  let m := collect_props_aux 0 gs []
  let groups := ((m.filter (fun kv => decide (1 < kv.2.length))).map
    (fun kv => (kv.1, dedupFirst (kv.2.map PropEntry.uri))))
  let inv := m.foldl (fun acc kv =>
    kv.2.foldl (fun acc e =>
      (find_inverse_candidates e.prop_name m).foldl
        (fun acc c => alistInsert acc e.uri c.uri) acc) acc) inv0
  (groups, inv)

/-- The +2 bonus of choose_canonical_entity when the entity has any
rdfs:label triple in the given graph. -/
def labelBonus (g : Graph) (e : Term) : Nat :=
  if g.any (fun t => decide (t.subj = e ∧ t.pred = rdfsLabel)) then 2 else 0

/-- The +2 bonus of choose_canonical_entity when the entity has any
rdfs:comment triple in the given graph. -/
def commentBonus (g : Graph) (e : Term) : Nat :=
  if g.any (fun t => decide (t.subj = e ∧ t.pred = rdfsComment)) then 2 else 0

/-- The per-graph contribution to an entity's score in
choose_canonical_entity: its subject-triple count plus both bonuses. -/
def graphScore (g : Graph) (e : Term) : Nat :=
  (g.filter (fun t => decide (t.subj = e))).length + labelBonus g e + commentBonus g e

/-- The total score of choose_canonical_entity, summed over all source
graphs. -/
def entityScore (gs : List Graph) (e : Term) : Nat :=
  gs.foldl (fun acc g => acc + graphScore g e) 0

/-- Python max over dict items: keeps the first element, replaces only on a
strictly greater score, so the first member attaining the maximum wins. -/
def firstMax (f : Term → Nat) (e : Term) : List Term → Term
  | [] => e
  | x :: xs => if f e < f x then firstMax f x xs else firstMax f e xs

/-- StrategicOntologyMerger.choose_canonical_entity on a linearized member
set.  The source never calls it on an empty group. -/
def choose_canonical_entity (entities : List Term) (gs : List Graph) : Term :=
  match entities with
  | [] => Term.uri ""
  | e :: rest => firstMax (entityScore gs) e rest

/-- The body of the group loop of create_entity_mappings: map every
non-canonical member of a group (of more than one distinct member) to the
chosen canonical member. -/
def addGroupMappings (gs : List Graph) (m : TMap) (members : List Term) : TMap :=
  if 1 < members.length then
    let canon := choose_canonical_entity members gs
    members.foldl (fun acc e => if e = canon then acc else alistInsert acc e canon) m
  else m

/-- StrategicOntologyMerger.create_entity_mappings: extend the class and
property mapping dicts (never cleared by the source) from the duplicate
groups. -/
def create_entity_mappings (cm0 pm0 : TMap) (sc sp : List (String × List Term))
    (gs : List Graph) : TMap × TMap :=
  (sc.foldl (fun acc kv => addGroupMappings gs acc kv.2) cm0,
   sp.foldl (fun acc kv => addGroupMappings gs acc kv.2) pm0)

/-- StrategicOntologyMerger.apply_mapping: class mappings first, then
property mappings, else identity. -/
def apply_mapping (cm pm : TMap) (e : Term) : Term :=
  match alistLookup cm e with
  | some v => v
  | none =>
    match alistLookup pm e with
    | some v => v
    | none => e

/-- The triple produced by the body of add_graph_with_mappings: apply the
mapping to subject and predicate, and to the object only when it is a URI
reference (literals and blank-node objects pass through). -/
def mapTriple (cm pm : TMap) (t : Triple) : Triple :=
  { subj := apply_mapping cm pm t.subj
    pred := apply_mapping cm pm t.pred
    obj := if t.obj.isUri then apply_mapping cm pm t.obj else t.obj }

/-- StrategicOntologyMerger.add_graph_with_mappings: add the mapped version
of every triple of the source graph to the merged graph. -/
def add_graph_with_mappings (cm pm : TMap) (acc : Graph) (g : Graph) : Graph :=
  g.foldl (fun acc t => Graph.add acc (mapTriple cm pm t)) acc

/-- StrategicOntologyMerger.add_inverse_property_declarations: for every
recorded candidate pair, add one owl:inverseOf triple between the mapped
properties unless they are mapped to the same canonical property. -/
def add_inverse_property_declarations (cm pm : TMap) (inv : TMap) (acc : Graph) : Graph :=
  inv.foldl (fun acc kv =>
    let m1 := apply_mapping cm pm kv.1
    let m2 := apply_mapping cm pm kv.2
    if m1 = m2 then acc else Graph.add acc ⟨m1, owlInverseOf, m2⟩) acc

/-- StrategicOntologyMerger.clean_redundant_restrictions: the source scans
for restriction nodes but its removal list is provably always empty (the loop
body only inspects and passes), so the pass is the identity on the graph. -/
def clean_redundant_restrictions (g : Graph) : Graph := g

/-- The mutable instance state of a StrategicOntologyMerger. -/
structure MergerState where
  merged : Graph
  class_mappings : TMap
  property_mappings : TMap
  inverse_properties : TMap
deriving DecidableEq, Repr

/-- The default base URI of StrategicOntologyMerger. -/
def baseUri : String := "http://www.example.org/test#"

/-- The ontology URI declared by the constructor (base URI with trailing hash
characters stripped). -/
def ontologyUri (base : String) : Term := Term.uri (rstripHash base)

/-- StrategicOntologyMerger.__init__: merged graph holding the ontology
declaration triple, all tracking dicts empty. -/
def initState (base : String) : MergerState :=
  { merged := [⟨ontologyUri base, rdfType, owlOntology⟩]
    class_mappings := []
    property_mappings := []
    inverse_properties := [] }

/-- Parsing of the source list: any unparseable source raises inside the
single try of merge_ontologies, before any instance state is touched. -/
def parseAll : List (Option Graph) → Option (List Graph)
  | [] => some []
  | none :: _ => none
  | some g :: rest => (parseAll rest).map (g :: ·)

/-- StrategicOntologyMerger.merge_ontologies.  A parse failure of any source
is caught by the single outer try and yields None with the state untouched.
The source also computes identify_essential_entities from the competency
questions, but never uses the result, so it cannot affect the state or the
returned graph and is omitted here.  On success the state keeps the merged
graph and all mapping dicts (nothing is ever reset). -/
def merge_ontologies (st : MergerState) (sources : List (Option Graph)) :
    MergerState × Option Graph :=
  match parseAll sources with
  | none => (st, none)
  | some gs =>
    let sc := find_similar_classes gs
    let spInv := find_similar_properties gs st.inverse_properties
    let cmpm := create_entity_mappings st.class_mappings st.property_mappings sc spInv.1 gs
    let merged := gs.foldl (fun acc g => add_graph_with_mappings cmpm.1 cmpm.2 acc g) st.merged
    let merged := add_inverse_property_declarations cmpm.1 cmpm.2 spInv.2 merged
    let merged := clean_redundant_restrictions merged
    ({ merged := merged
       class_mappings := cmpm.1
       property_mappings := cmpm.2
       inverse_properties := spInv.2 }, some merged)

/-- The counts returned by StrategicOntologyMerger.get_statistics. -/
structure Stats where
  classes : Nat
  object_properties : Nat
  datatype_properties : Nat
  inverse_properties : Nat
  class_mappings : Nat
  property_mappings : Nat
  total_triples : Nat
deriving DecidableEq, Repr

/-- StrategicOntologyMerger.get_statistics. -/
def get_statistics (st : MergerState) : Stats :=
  { classes := (dedupFirst (Graph.subjectsPO st.merged rdfType owlClass)).length
    object_properties := (dedupFirst (Graph.subjectsPO st.merged rdfType owlObjectProperty)).length
    datatype_properties := (dedupFirst (Graph.subjectsPO st.merged rdfType owlDatatypeProperty)).length
    inverse_properties := (dedupFirst ((st.merged.filter (fun t => decide (t.pred = owlInverseOf))).map Triple.subj)).length
    class_mappings := st.class_mappings.length
    property_mappings := st.property_mappings.length
    total_triples := st.merged.length }

end Strategic

namespace Improved

/-- The default base URI of ImprovedOntologyMerger. -/
def baseUri : String := "http://example.org/adaptive-hmi#"

/-- The mutable instance state of an ImprovedOntologyMerger. -/
structure IState where
  merged : Graph
  entity_mappings : TMap
  label_to_entity : List (String × Term)
  similar_entities : List (String × List Term)
  temp_graphs : List Graph
deriving DecidableEq, Repr

/-- The three declaration triples put into the merged graph both by
ImprovedOntologyMerger.__init__ and by the reset at the start of its
merge_ontologies. -/
def initMerged (base : String) : Graph :=
  [⟨Term.uri (rstripHash base), rdfType, owlOntology⟩,
   ⟨Term.uri (rstripHash base), rdfsLabel,
     Term.lit "Adaptive Human-Machine Interface Ontology" (some "en")⟩,
   ⟨Term.uri (rstripHash base), rdfsComment,
     Term.lit "An ontology for describing adaptive human-machine interfaces with a focus on driver state detection and multimodal feedback" (some "en")⟩]

/-- ImprovedOntologyMerger.__init__. -/
def initState (base : String) : IState :=
  { merged := initMerged base
    entity_mappings := []
    label_to_entity := []
    similar_entities := []
    temp_graphs := [] }

/-- Word characters of the source regex (ASCII input). -/
def isWordChar (c : Char) : Bool := c.isAlphanum || decide (c = '_')

/-- The whitespace-run collapsing sub of normalize_text: a run of whitespace
becomes one space (the flag records whether the previous kept character
closed a run). -/
def collapseWsAux (inRun : Bool) : List Char → List Char
  | [] => []
  | c :: t =>
    if pySpace c then
      if inRun then collapseWsAux true t else ' ' :: collapseWsAux true t
    else c :: collapseWsAux false t

/-- ImprovedOntologyMerger.normalize_text: lowercase, drop punctuation,
collapse whitespace runs to single spaces, strip. -/
def normalize_text (s : String) : String :=
  let l := (lowerL s.toList).filter (fun c => isWordChar c || pySpace c)
  String.mk (stripEnds (collapseWsAux false l))

/-- ImprovedOntologyMerger.get_entity_label_comment. -/
def get_entity_label_comment (g : Graph) (e : Term) : Option String × Option String :=
  (firstLitObj g e rdfsLabel, firstLitObj g e rdfsComment)

/-- The entity_type lookup loop of find_similar_entity: per temp graph take
the object of the first rdf:type triple of the entity (overwriting the
previous value), stopping at the first truthy one. -/
def firstTypeIn (e : Term) (et : Option Term) : List Graph → Option Term
  | [] => et
  | g :: rest =>
    let et' := match g.find? (fun t => decide (t.subj = e ∧ t.pred = rdfType)) with
      | some t => some t.obj
      | none => et
    if (et'.map termTruthy).getD false then et' else firstTypeIn e et' rest

/-- Python `pat in hay` on strings. -/
def hasSubS (hay pat : String) : Bool := hasSub hay.toList pat.toList

/-- The label_to_entity scan loop of find_similar_entity. -/
def fse_loop (merged : Graph) (temps : List Graph) (entity : Term)
    (nl nc : String) : List (String × Term) → Option Term
  | [] => none
  | (el, ee) :: rest =>
    let existingTy := (merged.find? (fun t => decide (t.subj = ee ∧ t.pred = rdfType))).map Triple.obj
    let entityTy := firstTypeIn entity none temps
    let skip := match entityTy, existingTy with
      | some a, some b => termTruthy a && termTruthy b && decide (a ≠ b)
      | _, _ => false
    if skip then fse_loop merged temps entity nl nc rest
    else if (hasSubS el nl || hasSubS nl el) && decide (5 < nl.length) then some ee
    else if decide (nc ≠ "") && decide (10 < nc.length) then
      let ec := match merged.find? (fun t => decide (t.subj = ee ∧ t.pred = rdfsComment) && t.obj.isLit) with
        | some t => normalize_text (termStr t.obj)
        | none => ""
      if decide (ec ≠ "") && (hasSubS ec nc || hasSubS nc ec) then some ee
      else fse_loop merged temps entity nl nc rest
    else fse_loop merged temps entity nl nc rest

/-- ImprovedOntologyMerger.find_similar_entity. -/
def find_similar_entity (st : IState) (entity : Term) (label : String)
    (comment : Option String) : Option Term :=
  if label = "" then none
  else
    let nl := normalize_text label
    let nc := match comment with
      | some c => normalize_text c
      | none => ""
    match sdictLookup st.label_to_entity nl with
    | some e => some e
    | none => fse_loop st.merged st.temp_graphs entity nl nc st.label_to_entity

/-- The else branch of the first pass of add_ontology: no similar entity was
found, so either queue the entity under an already-taken normalized label or
claim the label. -/
def recordLabel (st : IState) (nl : String) (s : Term) : IState :=
  match sdictLookup st.label_to_entity nl with
  | some prev =>
    let se := match sdictLookup st.similar_entities nl with
      | some _ => st.similar_entities
      | none => sdictInsert st.similar_entities nl [prev]
    { st with similar_entities := bucketAdd se nl s }
  | none => { st with label_to_entity := sdictInsert st.label_to_entity nl s }

/-- The body of the first pass of add_ontology for one rdf:type triple of a
class or property with a truthy label. -/
def firstPassStep (g : Graph) (st : IState) (t : Triple) : IState :=
  match get_entity_label_comment g t.subj with
  | (some label, comment) =>
    if label = "" then st
    else if (alistLookup st.entity_mappings t.subj).isSome then st
    else
      match find_similar_entity st t.subj label comment with
      | some sim =>
        if termTruthy sim then
          { st with entity_mappings := alistInsert st.entity_mappings t.subj sim }
        else recordLabel st (normalize_text label) t.subj
      | none => recordLabel st (normalize_text label) t.subj
  | (none, _) => st

/-- ImprovedOntologyMerger.add_ontology: a source that fails to parse is
caught inside the method (state untouched, False returned); otherwise the
graph joins temp_graphs, the first pass fills the duplicate-detection dicts,
and the second pass copies every triple with subject and URI object mapped
through entity_mappings.  The predicate is not mapped by the source. -/
def add_ontology (st : IState) (content : Option Graph) : IState × Bool :=
  match content with
  | none => (st, false)
  | some g =>
    let st := { st with temp_graphs := st.temp_graphs ++ [g] }
    let typed := g.filter (fun t =>
      decide (t.pred = rdfType) && t.subj.isUri &&
      (decide (t.obj = owlClass) || decide (t.obj = owlObjectProperty) ||
       decide (t.obj = owlDatatypeProperty)))
    let st := typed.foldl (firstPassStep g) st
    let merged := g.foldl (fun mg t =>
      let subject := (alistLookup st.entity_mappings t.subj).getD t.subj
      let obj := if t.obj.isUri then (alistLookup st.entity_mappings t.obj).getD t.obj else t.obj
      Graph.add mg ⟨subject, t.pred, obj⟩) st.merged
    ({ st with merged := merged }, true)

/-- ImprovedOntologyMerger.consolidate_entity_descriptions: for every mapped
pair, copy the distinct literal comments of the source entity (from the
original graphs) onto the target unless the target already carries them.  The
source also collects the labels of the source entity but never uses them. -/
def consolidate_entity_descriptions (st : IState) : IState :=
  st.entity_mappings.foldl (fun st kv =>
    let source_comments := st.temp_graphs.foldl (fun acc g =>
      (g.filter (fun t => decide (t.subj = kv.1 ∧ t.pred = rdfsComment) && t.obj.isLit)).foldl
        (fun acc t => if termStr t.obj ∈ acc then acc else acc ++ [termStr t.obj]) acc) []
    let target_comments := (st.merged.filter
      (fun t => decide (t.subj = kv.2 ∧ t.pred = rdfsComment) && t.obj.isLit)).map
      (fun t => termStr t.obj)
    let merged := source_comments.foldl (fun mg v =>
      if v ∈ target_comments then mg
      else Graph.add mg ⟨kv.2, rdfsComment, Term.lit v (some "en")⟩) st.merged
    { st with merged := merged }) st

/-- The connection count of merge_similar_entities: subject plus object
occurrences over the merged graph and all temp graphs. -/
def connCount (st : IState) (e : Term) : Nat :=
  ([st.merged] ++ st.temp_graphs).foldl (fun acc g =>
    acc + (g.filter (fun t => decide (t.subj = e))).length
        + (g.filter (fun t => decide (t.obj = e))).length) 0

/-- ImprovedOntologyMerger.merge_similar_entities: per queued label group,
keep the entity with the most connections (Python stable descending sort:
first maximum in original order) and move the statements of the others onto
it.  Note the source iterates entities[1:], so the first member is never
remapped even when it is not the kept one. -/
def merge_similar_entities (st : IState) : IState :=
  st.similar_entities.foldl (fun st kv =>
    if kv.2.length ≤ 1 then st
    else
      let keep := match kv.2 with
        | [] => Term.uri ""
        | e :: rest => Strategic.firstMax (connCount st) e rest
      (kv.2.drop 1).foldl (fun st e =>
        if e = keep then st
        else
          let st := { st with entity_mappings := alistInsert st.entity_mappings e keep }
          let outgoing := st.merged.filter (fun t => decide (t.subj = e))
          let merged := outgoing.foldl
            (fun mg t => Graph.add (Graph.removeT mg t) ⟨keep, t.pred, t.obj⟩) st.merged
          let st := { st with merged := merged }
          let incoming := st.merged.filter (fun t => decide (t.obj = e))
          let merged := incoming.foldl
            (fun mg t => Graph.add (Graph.removeT mg t) ⟨t.subj, t.pred, keep⟩) st.merged
          { st with merged := merged }) st) st

/-- The engine state at the end of ImprovedOntologyMerger.merge_ontologies:
all state reset, every source added (a failed source only logs a warning and
is skipped), descriptions consolidated, queued similar entities merged. -/
def mergedState (base : String) (sources : List (Option Graph)) : IState :=
  merge_similar_entities (consolidate_entity_descriptions
    (sources.foldl (fun st c => (add_ontology st c).1) (initState base)))

/-- ImprovedOntologyMerger.merge_ontologies: reset all state (the incoming
state is discarded), run the pipeline, and return the merged graph.  Nothing
after the per-source try can raise, so a result is always returned. -/
def merge_ontologies (base : String) (_st : IState) (sources : List (Option Graph)) :
    IState × Option Graph :=
  (mergedState base sources, some (mergedState base sources).merged)

end Improved

/-- The candidate score exactly as the claim states it: subject-statement
count summed over all source graphs, plus a single bonus of 2 if the node has
a label annotation anywhere and a single bonus of 2 if it has a comment
annotation anywhere (each bonus once per node, not once per graph).  Stated
for comparison with the score computed by the source. -/
def specScoreOncePerNode (gs : List Graph) (e : Term) : Nat :=
  (gs.map (fun g => (g.filter (fun t => decide (t.subj = e))).length)).sum
  + (if gs.any (fun g => g.any (fun t => decide (t.subj = e ∧ t.pred = rdfsLabel))) then 2 else 0)
  + (if gs.any (fun g => g.any (fun t => decide (t.subj = e ∧ t.pred = rdfsComment))) then 2 else 0)

/-- The first member of the list that attains the maximal value of f: the
reference selection rule used to characterize choose_canonical_entity. -/
def firstAttainingMax (f : Term → Nat) (members : List Term) : Option Term :=
  members.find? (fun x => members.all (fun y => decide (f y ≤ f x)))

/-- A mapping separates values from keys when no value of either dict is a
key of either dict (the shape the spec asserts for the EntityMapping). -/
def valsKeysSeparated (cm pm : TMap) : Prop :=
  ∀ v, (v ∈ alistVals cm ∨ v ∈ alistVals pm) →
    v ∉ alistKeys cm ∧ v ∉ alistKeys pm

instance (cm pm : TMap) : Decidable (valsKeysSeparated cm pm) := by
  unfold valsKeysSeparated
  have : (∀ v ∈ alistVals cm ++ alistVals pm,
      v ∉ alistKeys cm ∧ v ∉ alistKeys pm) ↔ valsKeysSeparated cm pm := by
    constructor
    · intro h v hv
      exact h v (List.mem_append.mpr hv)
    · intro h v hv
      exact h v (List.mem_append.mp hv)
  exact decidable_of_iff _ this

/-- Disjointness of the member sets of two duplicate groups. -/
def groupsDisjoint (a b : String × List Term) : Prop := ∀ x ∈ a.2, x ∉ b.2

instance (a b : String × List Term) : Decidable (groupsDisjoint a b) := by
  unfold groupsDisjoint
  infer_instance

/-!
Concrete inputs used by the witnesses and counterexamples.
-/

namespace Ex

def A : Term := Term.uri "http://ex#A"

def X : Term := Term.uri "http://ex#X"

def Y : Term := Term.uri "http://ex#Y"

def pz : Term := Term.uri "http://ex#pz"

def pw : Term := Term.uri "http://ex#pw"

/-- First source graph of the overlapping-group scenario: classes A and X
both labeled alpha, with A carrying the richer definition. -/
def g0 : Graph :=
  [⟨A, rdfType, owlClass⟩, ⟨A, rdfsLabel, Term.lit "alpha" none⟩,
   ⟨A, rdfsComment, Term.lit "ca" none⟩, ⟨A, pz, Term.lit "z" none⟩,
   ⟨A, pw, Term.lit "w" none⟩,
   ⟨X, rdfType, owlClass⟩, ⟨X, rdfsLabel, Term.lit "alpha" none⟩]

/-- Second source graph: the same class X now labeled beta, together with a
sparser class Y also labeled beta, so X sits in two duplicate groups. -/
def g1 : Graph :=
  [⟨X, rdfType, owlClass⟩, ⟨X, rdfsLabel, Term.lit "beta" none⟩,
   ⟨Y, rdfType, owlClass⟩, ⟨Y, rdfsLabel, Term.lit "beta" none⟩]

/-- The strategic merge of the overlapping-group scenario. -/
def runOverlap : Strategic.MergerState × Option Graph :=
  Strategic.merge_ontologies (Strategic.initState Strategic.baseUri) [some g0, some g1]

def P : Term := Term.uri "http://ex#P"

def Q : Term := Term.uri "http://ex#Q"

/-- Scoring scenario, graph one: P and Q share the normalized label gamma; Q
carries a comment, P does not. -/
def h0 : Graph :=
  [⟨P, rdfType, owlClass⟩, ⟨P, rdfsLabel, Term.lit "gamma" none⟩,
   ⟨Q, rdfType, owlClass⟩, ⟨Q, rdfsLabel, Term.lit "gamma" none⟩,
   ⟨Q, rdfsComment, Term.lit "qc" none⟩]

/-- Scoring scenario, graph two: P appears again with the same label, so its
label bonus accrues a second time. -/
def h1 : Graph :=
  [⟨P, rdfType, owlClass⟩, ⟨P, rdfsLabel, Term.lit "gamma" none⟩]

def a : Term := Term.uri "http://ex#a"

def b : Term := Term.uri "http://ex#b"

/-- Tie scenario: two classes with identical scores and no labels. -/
def gt : Graph := [⟨a, rdfType, owlClass⟩, ⟨b, rdfType, owlClass⟩]

def p2 : Term := Term.uri "http://ex#p2"

/-- A property table containing a name that the claim says must be matched as
the backward-substituted form of detectsDrowsiness. -/
def invTable : List (String × List Strategic.PropEntry) :=
  [("x", [⟨p2, 0, none, "isDetectedByDrowsiness"⟩])]

def pp : Term := Term.uri "http://ex#pp"

def qq : Term := Term.uri "http://ex#qq"

/-- Self-inverse scenario: two properties sharing the normalized label delta,
with a source owl:inverseOf statement between them. -/
def g2 : Graph :=
  [⟨pp, rdfType, owlObjectProperty⟩, ⟨pp, rdfsLabel, Term.lit "delta" none⟩,
   ⟨pp, rdfsComment, Term.lit "pc" none⟩,
   ⟨qq, rdfType, owlObjectProperty⟩, ⟨qq, rdfsLabel, Term.lit "delta" none⟩,
   ⟨pp, owlInverseOf, qq⟩]

/-- The strategic merge of the self-inverse scenario. -/
def runInv : Strategic.MergerState × Option Graph :=
  Strategic.merge_ontologies (Strategic.initState Strategic.baseUri) [some g2]

/-- The strategic merge of the empty source list. -/
def runEmpty : Strategic.MergerState × Option Graph :=
  Strategic.merge_ontologies (Strategic.initState Strategic.baseUri) []

def pa : Term := Term.uri "http://ex#pa"

def pb : Term := Term.uri "http://ex#pb"

def gA : Graph := [⟨a, pa, Term.lit "v" none⟩]

def gB : Graph := [⟨b, pb, Term.lit "w" none⟩]

/-- First strategic merge call of the cross-call scenario. -/
def callOne : Strategic.MergerState × Option Graph :=
  Strategic.merge_ontologies (Strategic.initState Strategic.baseUri) [some gA]

/-- Second strategic merge call on the same engine instance, with a source
that does not contain the triples of the first call. -/
def callTwo : Strategic.MergerState × Option Graph :=
  Strategic.merge_ontologies callOne.1 [some gB]

/-- First improved merge call of the cross-call scenario. -/
def iCallOne : Improved.IState × Option Graph :=
  Improved.merge_ontologies Improved.baseUri (Improved.initState Improved.baseUri) [some gA]

/-- Second improved merge call on the same engine instance. -/
def iCallTwo : Improved.IState × Option Graph :=
  Improved.merge_ontologies Improved.baseUri iCallOne.1 [some gB]

def p1i : Term := Term.uri "http://ex#p1i"

def p2i : Term := Term.uri "http://ex#p2i"

def xs : Term := Term.uri "http://ex#xs"

def ys : Term := Term.uri "http://ex#ys"

/-- Improved-merger scenario: two properties with the same label, one used as
a predicate; the improved second pass does not map predicates. -/
def gImp : Graph :=
  [⟨p2i, rdfType, owlObjectProperty⟩, ⟨p2i, rdfsLabel, Term.lit "linkedz" none⟩,
   ⟨p1i, rdfType, owlObjectProperty⟩, ⟨p1i, rdfsLabel, Term.lit "linkedz" none⟩,
   ⟨xs, p1i, ys⟩]

/-- The improved merge of the predicate scenario. -/
def runImp : Improved.IState × Option Graph :=
  Improved.merge_ontologies Improved.baseUri (Improved.initState Improved.baseUri) [some gImp]

end Ex

/-!
General lemmas about the graph and dictionary model.
-/

theorem mem_graph_add {g : Graph} {t u : Triple} :
    t ∈ Graph.add g u ↔ t ∈ g ∨ t = u := by
  unfold Graph.add
  split
  · constructor
    · exact Or.inl
    · rintro (h | rfl)
      · exact h
      · assumption
  · simp [List.mem_append]

theorem alistKeys_cons (p : Term × Term) (rest : TMap) :
    alistKeys (p :: rest) = p.1 :: alistKeys rest := rfl

theorem alistVals_cons (p : Term × Term) (rest : TMap) :
    alistVals (p :: rest) = p.2 :: alistVals rest := rfl

theorem alistLookup_eq_none_iff (m : TMap) (k : Term) :
    alistLookup m k = none ↔ k ∉ alistKeys m := by
  induction m with
  | nil => simp [alistLookup, alistKeys]
  | cons p rest ih =>
    obtain ⟨k', v⟩ := p
    rw [alistKeys_cons]
    by_cases h : k' = k
    · subst h
      simp [alistLookup]
    · simp only [alistLookup, if_neg h, ih, List.mem_cons, not_or]
      constructor
      · intro hn
        exact ⟨fun hc => h hc.symm, hn⟩
      · intro hn
        exact hn.2

theorem alistLookup_mem_vals (m : TMap) (k v : Term)
    (h : alistLookup m k = some v) : v ∈ alistVals m := by
  induction m with
  | nil => simp [alistLookup] at h
  | cons p rest ih =>
    obtain ⟨k', v'⟩ := p
    rw [alistVals_cons]
    simp only [alistLookup] at h
    by_cases hk : k' = k
    · rw [if_pos hk] at h
      injection h with h
      rw [h]
      exact List.mem_cons_self _ _
    · rw [if_neg hk] at h
      exact List.mem_cons_of_mem _ (ih h)

theorem alistLookup_isSome_of_mem_keys (m : TMap) (k : Term)
    (h : k ∈ alistKeys m) : (alistLookup m k).isSome := by
  induction m with
  | nil => simp [alistKeys] at h
  | cons p rest ih =>
    obtain ⟨k', v'⟩ := p
    rw [alistKeys_cons] at h
    simp only [alistLookup]
    by_cases hk : k' = k
    · rw [if_pos hk]
      rfl
    · rw [if_neg hk]
      rcases List.mem_cons.mp h with h' | h'
      · exact absurd h'.symm hk
      · exact ih h'

theorem alistInsert_hit (k' v' v : Term) (rest : TMap) :
    alistInsert ((k', v') :: rest) k' v = (k', v) :: rest := by
  simp [alistInsert]

theorem alistInsert_miss (k' v' k v : Term) (rest : TMap) (h : k' ≠ k) :
    alistInsert ((k', v') :: rest) k v = (k', v') :: alistInsert rest k v := by
  simp [alistInsert, h]

theorem alistKeys_insert_iff (m : TMap) (k v x : Term) :
    x ∈ alistKeys (alistInsert m k v) ↔ x ∈ alistKeys m ∨ x = k := by
  induction m with
  | nil => simp [alistInsert, alistKeys]
  | cons p rest ih =>
    obtain ⟨k', v'⟩ := p
    by_cases h : k' = k
    · subst h
      rw [alistInsert_hit, alistKeys_cons, alistKeys_cons]
      simp only [List.mem_cons]
      tauto
    · rw [alistInsert_miss _ _ _ _ _ h, alistKeys_cons, alistKeys_cons]
      simp only [List.mem_cons, ih]
      tauto

theorem alistVals_insert_sub (m : TMap) (k v x : Term)
    (h : x ∈ alistVals (alistInsert m k v)) : x ∈ alistVals m ∨ x = v := by
  induction m with
  | nil =>
    rw [show alistInsert [] k v = [(k, v)] from rfl, alistVals_cons] at h
    rcases List.mem_cons.mp h with h' | h'
    · exact Or.inr h'
    · simp [alistVals] at h'
  | cons p rest ih =>
    obtain ⟨k', v'⟩ := p
    by_cases hk : k' = k
    · subst hk
      rw [alistInsert_hit, alistVals_cons] at h
      rcases List.mem_cons.mp h with h' | h'
      · exact Or.inr h'
      · exact Or.inl (by rw [alistVals_cons]; exact List.mem_cons_of_mem _ h')
    · rw [alistInsert_miss _ _ _ _ _ hk, alistVals_cons] at h
      rcases List.mem_cons.mp h with h' | h'
      · exact Or.inl (by rw [alistVals_cons]; exact List.mem_cons.mpr (Or.inl h'))
      · rcases ih h' with h2 | h2
        · exact Or.inl (by rw [alistVals_cons]; exact List.mem_cons_of_mem _ h2)
        · exact Or.inr h2

/-!
Lemmas about the Graph Rewriter (add_graph_with_mappings) and the
Inverse-Relation Inferencer (add_inverse_property_declarations).
-/

theorem agm_mem_iff (cm pm : TMap) (acc : Graph) (g : Graph) (t' : Triple) :
    t' ∈ Strategic.add_graph_with_mappings cm pm acc g ↔
      t' ∈ acc ∨ ∃ t ∈ g, t' = Strategic.mapTriple cm pm t := by
  induction g generalizing acc with
  | nil => simp [Strategic.add_graph_with_mappings]
  | cons x xs ih =>
    unfold Strategic.add_graph_with_mappings at ih ⊢
    simp only [List.foldl_cons]
    rw [ih, mem_graph_add]
    simp only [List.mem_cons]
    constructor
    · rintro ((h | h) | ⟨t, ht, rfl⟩)
      · exact Or.inl h
      · exact Or.inr ⟨x, Or.inl rfl, h⟩
      · exact Or.inr ⟨t, Or.inr ht, rfl⟩
    · rintro (h | ⟨t, (rfl | ht), rfl⟩)
      · exact Or.inl (Or.inl h)
      · exact Or.inl (Or.inr rfl)
      · exact Or.inr ⟨t, ht, rfl⟩

theorem fold_agm_mem_iff (cm pm : TMap) (gs : List Graph) (acc : Graph) (t' : Triple) :
    t' ∈ gs.foldl (fun a g => Strategic.add_graph_with_mappings cm pm a g) acc ↔
      t' ∈ acc ∨ ∃ g ∈ gs, ∃ t ∈ g, t' = Strategic.mapTriple cm pm t := by
  induction gs generalizing acc with
  | nil => simp
  | cons x xs ih =>
    simp only [List.foldl_cons]
    rw [ih, agm_mem_iff]
    simp only [List.mem_cons]
    constructor
    · rintro ((h | h) | ⟨g, hg, h⟩)
      · exact Or.inl h
      · exact Or.inr ⟨x, Or.inl rfl, h⟩
      · exact Or.inr ⟨g, Or.inr hg, h⟩
    · rintro (h | ⟨g, (rfl | hg), h⟩)
      · exact Or.inl (Or.inl h)
      · exact Or.inl (Or.inr h)
      · exact Or.inr ⟨g, hg, h⟩

theorem aipd_mem (cm pm inv : TMap) (acc : Graph) (t : Triple)
    (h : t ∈ Strategic.add_inverse_property_declarations cm pm inv acc) :
    t ∈ acc ∨ ∃ kv ∈ inv,
      t = ⟨Strategic.apply_mapping cm pm kv.1, owlInverseOf, Strategic.apply_mapping cm pm kv.2⟩ ∧
      Strategic.apply_mapping cm pm kv.1 ≠ Strategic.apply_mapping cm pm kv.2 := by
  induction inv generalizing acc with
  | nil => simpa [Strategic.add_inverse_property_declarations] using h
  | cons kv rest ih =>
    unfold Strategic.add_inverse_property_declarations at h ih
    simp only [List.foldl_cons] at h
    rcases ih _ h with h' | ⟨kv', hkv', h'⟩
    · by_cases he : Strategic.apply_mapping cm pm kv.1 = Strategic.apply_mapping cm pm kv.2
      · rw [if_pos he] at h'
        exact Or.inl h'
      · rw [if_neg he, mem_graph_add] at h'
        rcases h' with h' | rfl
        · exact Or.inl h'
        · exact Or.inr ⟨kv, List.mem_cons_self _ _, rfl, he⟩
    · exact Or.inr ⟨kv', List.mem_cons_of_mem _ hkv', h'⟩

theorem aipd_mono (cm pm inv : TMap) (acc : Graph) (t : Triple)
    (h : t ∈ acc) : t ∈ Strategic.add_inverse_property_declarations cm pm inv acc := by
  induction inv generalizing acc with
  | nil => simpa [Strategic.add_inverse_property_declarations] using h
  | cons kv rest ih =>
    unfold Strategic.add_inverse_property_declarations at ih ⊢
    simp only [List.foldl_cons]
    apply ih
    split
    · exact h
    · exact mem_graph_add.mpr (Or.inl h)

/-!
Lemmas about the Canonical Selector (choose_canonical_entity).
-/

theorem firstMax_cons (f : Term → Nat) (e x : Term) (xs : List Term) :
    Strategic.firstMax f e (x :: xs) =
      if f e < f x then Strategic.firstMax f x xs else Strategic.firstMax f e xs := rfl

theorem firstMax_mem (f : Term → Nat) (e : Term) (l : List Term) :
    Strategic.firstMax f e l ∈ e :: l := by
  induction l generalizing e with
  | nil => simp [Strategic.firstMax]
  | cons x xs ih =>
    rw [firstMax_cons]
    by_cases h : f e < f x
    · rw [if_pos h]
      exact List.mem_cons_of_mem _ (ih x)
    · rw [if_neg h]
      rcases List.mem_cons.mp (ih e) with h' | h'
      · rw [h']
        exact List.mem_cons_self _ _
      · exact List.mem_cons_of_mem _ (List.mem_cons_of_mem _ h')

theorem firstMax_le (f : Term → Nat) (e : Term) (l : List Term) :
    ∀ y ∈ e :: l, f y ≤ f (Strategic.firstMax f e l) := by
  induction l generalizing e with
  | nil =>
    intro y hy
    have hy' : y = e := by simpa using hy
    rw [hy']
    exact Nat.le_refl _
  | cons x xs ih =>
    intro y hy
    rw [firstMax_cons]
    rcases List.mem_cons.mp hy with h1 | hy'
    · rw [h1]
      by_cases h : f e < f x
      · rw [if_pos h]
        exact le_trans (Nat.le_of_lt h) (ih x x (List.mem_cons_self _ _))
      · rw [if_neg h]
        exact ih e e (List.mem_cons_self _ _)
    · rcases List.mem_cons.mp hy' with h2 | h3
      · rw [h2]
        by_cases h : f e < f x
        · rw [if_pos h]
          exact ih x x (List.mem_cons_self _ _)
        · rw [if_neg h]
          exact le_trans (Nat.le_of_not_lt h) (ih e e (List.mem_cons_self _ _))
      · by_cases h : f e < f x
        · rw [if_pos h]
          exact ih x y (List.mem_cons_of_mem _ h3)
        · rw [if_neg h]
          exact ih e y (List.mem_cons_of_mem _ h3)

theorem choose_canonical_mem (entities : List Term) (gs : List Graph)
    (h : entities ≠ []) : Strategic.choose_canonical_entity entities gs ∈ entities := by
  cases entities with
  | nil => exact absurd rfl h
  | cons e rest => exact firstMax_mem _ e rest

theorem choose_canonical_le (entities : List Term) (gs : List Graph) :
    ∀ y ∈ entities,
      Strategic.entityScore gs y ≤
        Strategic.entityScore gs (Strategic.choose_canonical_entity entities gs) := by
  cases entities with
  | nil => intro y hy; simp at hy
  | cons e rest => exact firstMax_le _ e rest

/-!
Lemmas about create_entity_mappings and apply_mapping.
-/

theorem addGroup_fold_keys (canon : Term) (members : List Term) (m : TMap) (x : Term)
    (h : x ∈ alistKeys (members.foldl
      (fun acc e => if e = canon then acc else alistInsert acc e canon) m)) :
    x ∈ alistKeys m ∨ (x ∈ members ∧ x ≠ canon) := by
  induction members generalizing m with
  | nil => exact Or.inl h
  | cons e es ih =>
    simp only [List.foldl_cons] at h
    rcases ih _ h with h' | ⟨hmem, hne⟩
    · by_cases he : e = canon
      · rw [if_pos he] at h'
        exact Or.inl h'
      · rw [if_neg he] at h'
        rcases (alistKeys_insert_iff _ _ _ _).mp h' with h2 | h2
        · exact Or.inl h2
        · refine Or.inr ⟨?_, ?_⟩
          · rw [h2]
            exact List.mem_cons_self _ _
          · rw [h2]
            exact he
    · exact Or.inr ⟨List.mem_cons_of_mem _ hmem, hne⟩

theorem addGroup_fold_vals (canon : Term) (members : List Term) (m : TMap) (x : Term)
    (h : x ∈ alistVals (members.foldl
      (fun acc e => if e = canon then acc else alistInsert acc e canon) m)) :
    x ∈ alistVals m ∨ x = canon := by
  induction members generalizing m with
  | nil => exact Or.inl h
  | cons e es ih =>
    simp only [List.foldl_cons] at h
    rcases ih _ h with h' | h'
    · by_cases he : e = canon
      · rw [if_pos he] at h'
        exact Or.inl h'
      · rw [if_neg he] at h'
        exact alistVals_insert_sub _ _ _ _ h'
    · exact Or.inr h'

theorem addGroupMappings_keys (gs : List Graph) (m : TMap) (members : List Term) (x : Term)
    (h : x ∈ alistKeys (Strategic.addGroupMappings gs m members)) :
    x ∈ alistKeys m ∨
      (x ∈ members ∧ x ≠ Strategic.choose_canonical_entity members gs) := by
  unfold Strategic.addGroupMappings at h
  split at h
  · exact addGroup_fold_keys _ _ _ _ h
  · exact Or.inl h

theorem addGroupMappings_vals (gs : List Graph) (m : TMap) (members : List Term) (x : Term)
    (h : x ∈ alistVals (Strategic.addGroupMappings gs m members)) :
    x ∈ alistVals m ∨
      (x = Strategic.choose_canonical_entity members gs ∧ 1 < members.length) := by
  unfold Strategic.addGroupMappings at h
  split at h
  · rcases addGroup_fold_vals _ _ _ _ h with h' | h'
    · exact Or.inl h'
    · exact Or.inr ⟨h', by assumption⟩
  · exact Or.inl h

theorem cem_fold_keys (gs : List Graph) (groups : List (String × List Term))
    (m0 : TMap) (x : Term)
    (h : x ∈ alistKeys (groups.foldl (fun acc kv => Strategic.addGroupMappings gs acc kv.2) m0)) :
    x ∈ alistKeys m0 ∨
      ∃ kv ∈ groups, x ∈ kv.2 ∧ x ≠ Strategic.choose_canonical_entity kv.2 gs := by
  induction groups generalizing m0 with
  | nil => exact Or.inl h
  | cons g rest ih =>
    simp only [List.foldl_cons] at h
    rcases ih _ h with h' | ⟨kv, hkv, hx⟩
    · rcases addGroupMappings_keys _ _ _ _ h' with h2 | h2
      · exact Or.inl h2
      · exact Or.inr ⟨g, List.mem_cons_self _ _, h2⟩
    · exact Or.inr ⟨kv, List.mem_cons_of_mem _ hkv, hx⟩

theorem cem_fold_vals (gs : List Graph) (groups : List (String × List Term))
    (m0 : TMap) (x : Term)
    (h : x ∈ alistVals (groups.foldl (fun acc kv => Strategic.addGroupMappings gs acc kv.2) m0)) :
    x ∈ alistVals m0 ∨
      ∃ kv ∈ groups, x = Strategic.choose_canonical_entity kv.2 gs ∧ 1 < kv.2.length := by
  induction groups generalizing m0 with
  | nil => exact Or.inl h
  | cons g rest ih =>
    simp only [List.foldl_cons] at h
    rcases ih _ h with h' | ⟨kv, hkv, hx⟩
    · rcases addGroupMappings_vals _ _ _ _ h' with h2 | h2
      · exact Or.inl h2
      · exact Or.inr ⟨g, List.mem_cons_self _ _, h2⟩
    · exact Or.inr ⟨kv, List.mem_cons_of_mem _ hkv, hx⟩

theorem apply_mapping_of_not_key (cm pm : TMap) (e : Term)
    (h1 : e ∉ alistKeys cm) (h2 : e ∉ alistKeys pm) :
    Strategic.apply_mapping cm pm e = e := by
  unfold Strategic.apply_mapping
  rw [(alistLookup_eq_none_iff cm e).mpr h1, (alistLookup_eq_none_iff pm e).mpr h2]

theorem apply_mapping_spec (cm pm : TMap) (e : Term) :
    (Strategic.apply_mapping cm pm e = e ∧ e ∉ alistKeys cm ∧ e ∉ alistKeys pm) ∨
      Strategic.apply_mapping cm pm e ∈ alistVals cm ∨
      Strategic.apply_mapping cm pm e ∈ alistVals pm := by
  unfold Strategic.apply_mapping
  cases h1 : alistLookup cm e with
  | some v => exact Or.inr (Or.inl (alistLookup_mem_vals _ _ _ h1))
  | none =>
    cases h2 : alistLookup pm e with
    | some v => exact Or.inr (Or.inr (alistLookup_mem_vals _ _ _ h2))
    | none =>
      exact Or.inl ⟨rfl, (alistLookup_eq_none_iff _ _).mp h1,
        (alistLookup_eq_none_iff _ _).mp h2⟩

theorem apply_mapping_ne_key (cm pm : TMap) (hsep : valsKeysSeparated cm pm)
    (e k : Term) (hk : k ∈ alistKeys cm ∨ k ∈ alistKeys pm) :
    Strategic.apply_mapping cm pm e ≠ k := by
  rcases apply_mapping_spec cm pm e with ⟨heq, h1, h2⟩ | h | h
  · rw [heq]
    intro hek
    rcases hk with hk | hk
    · exact h1 (hek ▸ hk)
    · exact h2 (hek ▸ hk)
  · intro hek
    have := hsep _ (Or.inl h)
    rcases hk with hk | hk
    · exact this.1 (hek ▸ hk)
    · exact this.2 (hek ▸ hk)
  · intro hek
    have := hsep _ (Or.inr h)
    rcases hk with hk | hk
    · exact this.1 (hek ▸ hk)
    · exact this.2 (hek ▸ hk)

theorem apply_mapping_idem_of_sep (cm pm : TMap) (hsep : valsKeysSeparated cm pm)
    (e : Term) :
    Strategic.apply_mapping cm pm (Strategic.apply_mapping cm pm e) =
      Strategic.apply_mapping cm pm e := by
  rcases apply_mapping_spec cm pm e with ⟨heq, _, _⟩ | h | h
  · rw [heq]
    exact heq
  · have := hsep _ (Or.inl h)
    exact apply_mapping_of_not_key _ _ _ this.1 this.2
  · have := hsep _ (Or.inr h)
    exact apply_mapping_of_not_key _ _ _ this.1 this.2

theorem groupsDisjoint_symm : Symmetric groupsDisjoint := by
  intro a b hab x hxb hxa
  exact hab x hxa hxb

theorem cem_separated (gs : List Graph) (sc sp : List (String × List Term))
    (hdisj : (sc ++ sp).Pairwise groupsDisjoint) :
    valsKeysSeparated (Strategic.create_entity_mappings [] [] sc sp gs).1
      (Strategic.create_entity_mappings [] [] sc sp gs).2 := by
  intro v hv
  have hvals : ∃ kvA ∈ sc ++ sp,
      v = Strategic.choose_canonical_entity kvA.2 gs ∧ 1 < kvA.2.length := by
    rcases hv with h | h
    · rcases cem_fold_vals gs sc [] v h with h' | ⟨kv, hkv, hx⟩
      · simp [alistVals] at h'
      · exact ⟨kv, List.mem_append_left _ hkv, hx⟩
    · rcases cem_fold_vals gs sp [] v h with h' | ⟨kv, hkv, hx⟩
      · simp [alistVals] at h'
      · exact ⟨kv, List.mem_append_right _ hkv, hx⟩
  obtain ⟨kvA, hkvA, hveq, hlen⟩ := hvals
  have hvmem : v ∈ kvA.2 := by
    rw [hveq]
    apply choose_canonical_mem
    intro hnil
    rw [hnil] at hlen
    simp at hlen
  have keyCase : ∀ kvB, kvB ∈ sc ++ sp → v ∈ kvB.2 →
      v ≠ Strategic.choose_canonical_entity kvB.2 gs → False := by
    intro kvB hkvB hvB hneB
    by_cases heq : kvA = kvB
    · rw [heq] at hveq
      exact hneB hveq
    · exact (List.Pairwise.forall groupsDisjoint_symm hdisj hkvA hkvB heq) v hvmem hvB
  constructor
  · intro hkey
    rcases cem_fold_keys gs sc [] v hkey with h' | ⟨kvB, hkvB, hvB, hneB⟩
    · simp [alistKeys] at h'
    · exact keyCase kvB (List.mem_append_left _ hkvB) hvB hneB
  · intro hkey
    rcases cem_fold_keys gs sp [] v hkey with h' | ⟨kvB, hkvB, hvB, hneB⟩
    · simp [alistKeys] at h'
    · exact keyCase kvB (List.mem_append_right _ hkvB) hvB hneB

/-!
Lemmas about the selection order of choose_canonical_entity: it picks the
first member, in the order it receives them, whose score attains the maximum.
-/

theorem find?_congr_pred {α : Type} (p q : α → Bool) (h : ∀ x, p x = q x)
    (l : List α) : l.find? p = l.find? q := by
  have hpq : p = q := funext h
  rw [hpq]

theorem firstAttainingMax_cons (f : Term → Nat) (e : Term) (l : List Term) :
    firstAttainingMax f (e :: l) = some (Strategic.firstMax f e l) := by
  induction l generalizing e with
  | nil => simp [firstAttainingMax, Strategic.firstMax, List.find?]
  | cons x xs ih =>
    rw [firstMax_cons]
    by_cases h : f e < f x
    · rw [if_pos h, ← ih x]
      unfold firstAttainingMax
      have hPe : ((e :: x :: xs).all (fun y => decide (f y ≤ f e))) = false := by
        simp only [List.all_cons, Bool.and_eq_false_iff]
        refine Or.inr (Or.inl ?_)
        simpa using Nat.not_le_of_lt h
      rw [List.find?_cons_of_neg _ (by simp [hPe])]
      apply find?_congr_pred
      intro z
      simp only [List.all_cons]
      cases hfx : decide (f x ≤ f z) with
      | false => simp [hfx]
      | true =>
        have hez : f e ≤ f z := le_trans (Nat.le_of_lt h) (of_decide_eq_true hfx)
        simp [hfx, hez]
    · rw [if_neg h, ← ih e]
      have hxe : f x ≤ f e := Nat.le_of_not_lt h
      unfold firstAttainingMax
      have hpt : ∀ z, ((e :: x :: xs).all (fun y => decide (f y ≤ f z))) =
          ((e :: xs).all (fun y => decide (f y ≤ f z))) := by
        intro z
        simp only [List.all_cons]
        cases hfe : decide (f e ≤ f z) with
        | false => simp [hfe]
        | true =>
          have hxz : f x ≤ f z := le_trans hxe (of_decide_eq_true hfe)
          simp [hfe, hxz]
      cases hPe : ((e :: xs).all (fun y => decide (f y ≤ f e))) with
      | true =>
        simp only [List.find?]
        rw [hpt e, hPe]
      | false =>
        have hPx : ((e :: x :: xs).all (fun y => decide (f y ≤ f x))) = false := by
          cases hPx' : ((e :: x :: xs).all (fun y => decide (f y ≤ f x))) with
          | false => rfl
          | true =>
            exfalso
            simp only [List.all_cons, Bool.and_eq_true, decide_eq_true_eq,
              List.all_eq_true, decide_eq_true_eq] at hPx'
            obtain ⟨hee, hxx, hall⟩ := hPx'
            have hcontra : ((e :: xs).all (fun y => decide (f y ≤ f e))) = true := by
              simp only [List.all_cons, Bool.and_eq_true, decide_eq_true_eq,
                List.all_eq_true, decide_eq_true_eq]
              exact ⟨Nat.le_refl _, fun y hy => le_trans (hall y hy) hxe⟩
            rw [hcontra] at hPe
            simp at hPe
        simp only [List.find?]
        rw [hpt e, hPe, hPx]
        simp only [cond_false]
        exact find?_congr_pred _ _ hpt xs

/-!
Lemmas about find_inverse_candidates: the backward tokens of the pattern
table all contain an uppercase letter, while both sides of every containment
test are lowercased, so no candidate is ever produced.
-/

theorem lowChar_ne_O : ∀ c, lowChar c ≠ 'O' := by
  intro c
  unfold lowChar
  split <;> simp_all

theorem lowChar_ne_B : ∀ c, lowChar c ≠ 'B' := by
  intro c
  unfold lowChar
  split <;> simp_all

theorem lowChar_ne_T : ∀ c, lowChar c ≠ 'T' := by
  intro c
  unfold lowChar
  split <;> simp_all

theorem not_mem_lowerL (ch : Char) (hlc : ∀ x, lowChar x ≠ ch) (l : List Char) :
    ch ∉ lowerL l := by
  intro h
  rcases List.mem_map.mp h with ⟨x, _, hx⟩
  exact hlc x hx

theorem leadsWith_mem (pat l : List Char) (h : leadsWith pat l = true) :
    ∀ c ∈ pat, c ∈ l := by
  induction pat generalizing l with
  | nil =>
    intro c hc
    simp at hc
  | cons p ps ih =>
    cases l with
    | nil => simp [leadsWith] at h
    | cons d ds =>
      simp only [leadsWith, Bool.and_eq_true, decide_eq_true_eq] at h
      intro c hc
      rcases List.mem_cons.mp hc with hc' | hc'
      · rw [hc', h.1]
        exact List.mem_cons_self _ _
      · exact List.mem_cons_of_mem _ (ih ds h.2 c hc')

theorem hasSub_false_of_not_mem (hay pat : List Char) (ch : Char)
    (hc : ch ∈ pat) (hn : ch ∉ hay) : hasSub hay pat = false := by
  induction hay with
  | nil =>
    cases pat with
    | nil => simp at hc
    | cons p ps => simp [hasSub]
  | cons d ds ih =>
    unfold hasSub
    have h1 : leadsWith pat (d :: ds) = false := by
      cases hl : leadsWith pat (d :: ds) with
      | false => rfl
      | true => exact absurd (leadsWith_mem _ _ hl ch hc) hn
    have h2 : hasSub ds pat = false :=
      ih (fun hm => hn (List.mem_cons_of_mem _ hm))
    rw [h1, h2]
    rfl

theorem replAll_mem_sub (pat sub l : List Char) (ch : Char) (hp : pat ≠ [])
    (hs : hasSub l pat = true) (hc : ch ∈ sub) : ch ∈ replAll pat sub l := by
  induction l with
  | nil =>
    unfold hasSub at hs
    rw [decide_eq_true_eq] at hs
    exact absurd hs hp
  | cons d t ih =>
    unfold replAll
    by_cases hb : pat ≠ [] ∧ leadsWith pat (d :: t) = true
    · rw [if_pos hb]
      exact List.mem_append_left _ hc
    · rw [if_neg hb]
      have hlw : leadsWith pat (d :: t) = false := by
        cases hl : leadsWith pat (d :: t) with
        | false => rfl
        | true => exact absurd ⟨hp, hl⟩ hb
      have hs' : hasSub t pat = true := by
        unfold hasSub at hs
        rw [hlw] at hs
        simpa using hs
      exact List.mem_cons_of_mem _ (ih hs')

theorem pairCandidates_nil (s : List Char) (fb : String × String)
    (m : List (String × List Strategic.PropEntry)) (ch : Char)
    (hcb : ch ∈ fb.2.toList) (hlc : ∀ x, lowChar x ≠ ch) (hf : fb.1.toList ≠ []) :
    Strategic.pairCandidates (lowerL s) fb m = [] := by
  unfold Strategic.pairCandidates
  by_cases h1 : hasSub (lowerL s) fb.1.toList = true
  · rw [if_pos h1]
    apply List.filter_eq_nil_iff.mpr
    intro e he
    have hch : ch ∈ replAll fb.1.toList fb.2.toList (lowerL s) :=
      replAll_mem_sub _ _ _ _ hf h1 hcb
    have hfalse : hasSub (lowerL e.prop_name.toList)
        (replAll fb.1.toList fb.2.toList (lowerL s)) = false :=
      hasSub_false_of_not_mem _ _ ch hch (not_mem_lowerL ch hlc _)
    show hasSub (lowerL e.prop_name.toList)
        (replAll fb.1.toList fb.2.toList (lowerL s)) ≠ true
    rw [hfalse]
    exact Bool.false_ne_true
  · rw [if_neg h1]
    have h2 : hasSub (lowerL s) fb.2.toList = false :=
      hasSub_false_of_not_mem _ _ ch hcb (not_mem_lowerL ch hlc _)
    rw [if_neg (by rw [h2]; exact Bool.false_ne_true)]

/-!
The pattern loop of find_inverse_candidates over the concrete table, and the
parse behavior of merge_ontologies.
-/

theorem find_inverse_candidates_nil (prop_name : String)
    (m : List (String × List Strategic.PropEntry)) :
    Strategic.find_inverse_candidates prop_name m = [] := by
  unfold Strategic.find_inverse_candidates Strategic.inverse_patterns
  simp only [List.map_cons, List.map_nil]
  rw [pairCandidates_nil prop_name.toList ("has", "isOf") m 'O' (by decide) lowChar_ne_O (by decide),
    pairCandidates_nil prop_name.toList ("detects", "detectedBy") m 'B' (by decide) lowChar_ne_B (by decide),
    pairCandidates_nil prop_name.toList ("observes", "observedBy") m 'B' (by decide) lowChar_ne_B (by decide),
    pairCandidates_nil prop_name.toList ("activates", "activatedBy") m 'B' (by decide) lowChar_ne_B (by decide),
    pairCandidates_nil prop_name.toList ("responds", "respondsTo") m 'T' (by decide) lowChar_ne_T (by decide),
    pairCandidates_nil prop_name.toList ("signals", "signaledBy") m 'B' (by decide) lowChar_ne_B (by decide),
    pairCandidates_nil prop_name.toList ("indicates", "indicatedBy") m 'B' (by decide) lowChar_ne_B (by decide),
    pairCandidates_nil prop_name.toList ("classifies", "classifiedBy") m 'B' (by decide) lowChar_ne_B (by decide),
    pairCandidates_nil prop_name.toList ("analyzes", "analyzedBy") m 'B' (by decide) lowChar_ne_B (by decide)]
  rfl

theorem parseAll_none_of_mem (sources : List (Option Graph))
    (h : none ∈ sources) : Strategic.parseAll sources = none := by
  induction sources with
  | nil => simp at h
  | cons s rest ih =>
    cases s with
    | none => rfl
    | some g =>
      rcases List.mem_cons.mp h with h' | h'
      · exact absurd h' (by simp)
      · unfold Strategic.parseAll
        rw [ih h']
        rfl

theorem parseAll_some_of_all (sources : List (Option Graph))
    (h : ∀ s ∈ sources, s.isSome) : ∃ gs, Strategic.parseAll sources = some gs := by
  induction sources with
  | nil => exact ⟨[], rfl⟩
  | cons s rest ih =>
    cases s with
    | none =>
      have := h none (List.mem_cons_self _ _)
      simp at this
    | some g =>
      obtain ⟨gs, hgs⟩ := ih (fun s hs => h s (List.mem_cons_of_mem _ hs))
      refine ⟨g :: gs, ?_⟩
      unfold Strategic.parseAll
      rw [hgs]
      rfl

theorem parseAll_mem (sources : List (Option Graph)) (gs : List Graph) (g : Graph)
    (h : Strategic.parseAll sources = some gs) (hg : some g ∈ sources) : g ∈ gs := by
  induction sources generalizing gs with
  | nil => simp at hg
  | cons s rest ih =>
    cases s with
    | none => simp [Strategic.parseAll] at h
    | some g' =>
      unfold Strategic.parseAll at h
      cases hr : Strategic.parseAll rest with
      | none =>
        rw [hr] at h
        simp at h
      | some gs' =>
        rw [hr] at h
        simp only [Option.map_some'] at h
        have h2 : g' :: gs' = gs := by injection h
        subst h2
        rcases List.mem_cons.mp hg with h1 | h1
        · injection h1 with h1
          rw [h1]
          exact List.mem_cons_self _ _
        · exact List.mem_cons_of_mem _ (ih gs' hr h1)

/-!
The collected duplicate-group members are always URI references.
-/

theorem dedupFirstAux_sub [DecidableEq α] (seen : List α) (l : List α) (x : α)
    (h : x ∈ dedupFirstAux seen l) : x ∈ l := by
  induction l generalizing seen with
  | nil => simp [dedupFirstAux] at h
  | cons y t ih =>
    unfold dedupFirstAux at h
    split at h
    · exact List.mem_cons_of_mem _ (ih _ h)
    · rcases List.mem_cons.mp h with h' | h'
      · rw [h']
        exact List.mem_cons_self _ _
      · exact List.mem_cons_of_mem _ (ih _ h')

theorem dedupFirst_sub [DecidableEq α] (l : List α) (x : α)
    (h : x ∈ dedupFirst l) : x ∈ l :=
  dedupFirstAux_sub [] l x h

theorem bucketAdd_pred {α : Type} (P : α → Prop) (m : List (String × List α))
    (k : String) (v : α) (hm : ∀ kv ∈ m, ∀ x ∈ kv.2, P x) (hv : P v) :
    ∀ kv ∈ bucketAdd m k v, ∀ x ∈ kv.2, P x := by
  induction m with
  | nil =>
    intro kv hkv x hx
    simp [bucketAdd] at hkv
    rw [hkv] at hx
    simp at hx
    rw [hx]
    exact hv
  | cons p rest ih =>
    intro kv hkv x hx
    unfold bucketAdd at hkv
    split at hkv
    · rcases List.mem_cons.mp hkv with h' | h'
      · rw [h'] at hx
        simp only [List.mem_append, List.mem_singleton] at hx
        rcases hx with hx | hx
        · exact hm p (List.mem_cons_self _ _) x hx
        · rw [hx]
          exact hv
      · exact hm kv (List.mem_cons_of_mem _ h') x hx
    · rcases List.mem_cons.mp hkv with h' | h'
      · rw [h'] at hx
        exact hm p (List.mem_cons_self _ _) x hx
      · exact ih (fun kv2 hkv2 => hm kv2 (List.mem_cons_of_mem _ hkv2)) kv h' x hx

theorem fold_bucketAdd_pred {α : Type} (P : α → Prop) (key : Term → String)
    (val : Term → α) (items : List Term) (acc : List (String × List α))
    (hacc : ∀ kv ∈ acc, ∀ x ∈ kv.2, P x) (hitems : ∀ u ∈ items, P (val u)) :
    ∀ kv ∈ items.foldl (fun m u => bucketAdd m (key u) (val u)) acc, ∀ x ∈ kv.2, P x := by
  induction items generalizing acc with
  | nil => exact hacc
  | cons u us ih =>
    simp only [List.foldl_cons]
    exact ih _
      (bucketAdd_pred P acc (key u) (val u) hacc (hitems u (List.mem_cons_self _ _)))
      (fun u' hu' => hitems u' (List.mem_cons_of_mem _ hu'))

theorem collect_classes_uri (gs : List Graph) :
    ∀ (i : Nat) (acc : List (String × List Strategic.ClassEntry)),
      (∀ kv ∈ acc, ∀ en ∈ kv.2, en.uri.isUri = true) →
      ∀ kv ∈ Strategic.collect_classes_aux i gs acc, ∀ en ∈ kv.2, en.uri.isUri = true := by
  induction gs with
  | nil =>
    intro i acc hacc
    exact hacc
  | cons g rest ih =>
    intro i acc hacc
    unfold Strategic.collect_classes_aux
    apply ih
    exact fold_bucketAdd_pred (fun en : Strategic.ClassEntry => en.uri.isUri = true)
      (fun u => Strategic.normalize_name (Strategic.displayOr (Strategic.get_label g u) u))
      (fun u => ({ uri := u, gi := i, label := Strategic.get_label g u } : Strategic.ClassEntry))
      ((Graph.subjectsPO g rdfType owlClass).filter Term.isUri) acc hacc
      (fun u hu => (List.mem_filter.mp hu).2)

theorem collect_props_uri (gs : List Graph) :
    ∀ (i : Nat) (acc : List (String × List Strategic.PropEntry)),
      (∀ kv ∈ acc, ∀ en ∈ kv.2, en.uri.isUri = true) →
      ∀ kv ∈ Strategic.collect_props_aux i gs acc, ∀ en ∈ kv.2, en.uri.isUri = true := by
  induction gs with
  | nil =>
    intro i acc hacc
    exact hacc
  | cons g rest ih =>
    intro i acc hacc
    unfold Strategic.collect_props_aux
    apply ih
    exact fold_bucketAdd_pred (fun en : Strategic.PropEntry => en.uri.isUri = true)
      (fun u => Strategic.normalize_name (Strategic.displayOr (Strategic.get_label g u) u))
      (fun u => ({ uri := u, gi := i, label := Strategic.get_label g u,
                   prop_name := Strategic.displayOr (Strategic.get_label g u) u } : Strategic.PropEntry))
      (dedupFirst ((Graph.subjectsPO g rdfType owlObjectProperty ++
        Graph.subjectsPO g rdfType owlDatatypeProperty).filter Term.isUri)) acc hacc
      (fun u hu => (List.mem_filter.mp (dedupFirst_sub _ _ hu)).2)

theorem find_similar_classes_members_uri (gs : List Graph) :
    ∀ kv ∈ Strategic.find_similar_classes gs, ∀ x ∈ kv.2, x.isUri = true := by
  intro kv hkv x hx
  unfold Strategic.find_similar_classes at hkv
  rcases List.mem_map.mp hkv with ⟨kv', hkv', hmap⟩
  have hx' : x ∈ kv'.2.map Strategic.ClassEntry.uri := by
    rw [← hmap] at hx
    exact dedupFirst_sub _ _ hx
  rcases List.mem_map.mp hx' with ⟨en, hen, huri⟩
  rw [← huri]
  exact collect_classes_uri gs 0 [] (by intro kv2 hkv2; simp at hkv2) kv'
    (List.mem_filter.mp hkv').1 en hen

theorem find_similar_props_members_uri (gs : List Graph) (inv0 : TMap) :
    ∀ kv ∈ (Strategic.find_similar_properties gs inv0).1, ∀ x ∈ kv.2, x.isUri = true := by
  intro kv hkv x hx
  unfold Strategic.find_similar_properties at hkv
  simp only at hkv
  rcases List.mem_map.mp hkv with ⟨kv', hkv', hmap⟩
  have hx' : x ∈ kv'.2.map Strategic.PropEntry.uri := by
    rw [← hmap] at hx
    exact dedupFirst_sub _ _ hx
  rcases List.mem_map.mp hx' with ⟨en, hen, huri⟩
  rw [← huri]
  exact collect_props_uri gs 0 [] (by intro kv2 hkv2; simp at hkv2) kv'
    (List.mem_filter.mp hkv').1 en hen

/-!
Remaining arithmetic and fold helpers.
-/

theorem foldl_add_map_sum {β : Type} (f : β → Nat) (l : List β) :
    ∀ init, l.foldl (fun a x => a + f x) init = init + (l.map f).sum := by
  induction l with
  | nil => intro init; simp
  | cons x xs ih =>
    intro init
    simp only [List.foldl_cons, List.map_cons, List.sum_cons]
    rw [ih]
    omega

theorem entityScore_eq_sum (gs : List Graph) (e : Term) :
    Strategic.entityScore gs e = (gs.map (fun g => Strategic.graphScore g e)).sum := by
  unfold Strategic.entityScore
  rw [foldl_add_map_sum]
  omega

theorem foldl_const_acc {α β : Type} (l : List α) (init : β) :
    l.foldl (fun a _ => a) init = init := by
  induction l generalizing init with
  | nil => rfl
  | cons x xs ih => exact ih init

theorem find_similar_properties_inv_unchanged (gs : List Graph) (inv0 : TMap) :
    (Strategic.find_similar_properties gs inv0).2 = inv0 := by
  unfold Strategic.find_similar_properties
  simp only [find_inverse_candidates_nil, List.foldl_nil]
  induction (Strategic.collect_props_aux 0 gs []) generalizing inv0 with
  | nil => rfl
  | cons kv rest ih =>
    simp only [List.foldl_cons]
    rw [foldl_const_acc]
    exact ih inv0

theorem improved_fold_skip (sources : List (Option Graph)) (st0 : Improved.IState) :
    sources.foldl (fun st c => (Improved.add_ontology st c).1) st0 =
      (sources.filter Option.isSome).foldl (fun st c => (Improved.add_ontology st c).1) st0 := by
  induction sources generalizing st0 with
  | nil => rfl
  | cons s rest ih =>
    cases s with
    | none =>
      simp only [List.foldl_cons, List.filter_cons, Option.isSome_none]
      exact ih st0
    | some g =>
      simp only [List.foldl_cons, List.filter_cons, Option.isSome_some]
      exact ih _

/-!
Claim theorems.
-/

/-- C3 (counterexample): when the same class appears in two source graphs
under two different labels, it lands in two duplicate groups, and the
EntityMapping produced by one merge run is not idempotent: Y maps to X while
X maps on to A, and X, the canonical node of the beta group, occurs as a key
of the mapping table. -/
theorem C3_counterexample :
    Strategic.apply_mapping Ex.runOverlap.1.class_mappings Ex.runOverlap.1.property_mappings
        (Strategic.apply_mapping Ex.runOverlap.1.class_mappings
          Ex.runOverlap.1.property_mappings Ex.Y)
      ≠ Strategic.apply_mapping Ex.runOverlap.1.class_mappings
          Ex.runOverlap.1.property_mappings Ex.Y
    ∧ Strategic.find_similar_classes [Ex.g0, Ex.g1] =
        [("alpha", [Ex.A, Ex.X]), ("beta", [Ex.X, Ex.Y])]
    ∧ Strategic.choose_canonical_entity [Ex.X, Ex.Y] [Ex.g0, Ex.g1] = Ex.X
    ∧ Ex.X ∈ alistKeys Ex.runOverlap.1.class_mappings := by
  decide

/-- C3 (amended): provided no node belongs to two duplicate groups (the
class and property groups are pairwise member-disjoint), the EntityMapping
built by create_entity_mappings from empty tables is idempotent. -/
theorem C3_mapping_idempotent_of_disjoint_groups (gs : List Graph)
    (hdisj : (Strategic.find_similar_classes gs ++
      (Strategic.find_similar_properties gs []).1).Pairwise groupsDisjoint) :
    ∀ n,
      Strategic.apply_mapping
        (Strategic.create_entity_mappings [] [] (Strategic.find_similar_classes gs)
          (Strategic.find_similar_properties gs []).1 gs).1
        (Strategic.create_entity_mappings [] [] (Strategic.find_similar_classes gs)
          (Strategic.find_similar_properties gs []).1 gs).2
        (Strategic.apply_mapping
          (Strategic.create_entity_mappings [] [] (Strategic.find_similar_classes gs)
            (Strategic.find_similar_properties gs []).1 gs).1
          (Strategic.create_entity_mappings [] [] (Strategic.find_similar_classes gs)
            (Strategic.find_similar_properties gs []).1 gs).2 n) =
      Strategic.apply_mapping
        (Strategic.create_entity_mappings [] [] (Strategic.find_similar_classes gs)
          (Strategic.find_similar_properties gs []).1 gs).1
        (Strategic.create_entity_mappings [] [] (Strategic.find_similar_classes gs)
          (Strategic.find_similar_properties gs []).1 gs).2 n := by
  intro n
  exact apply_mapping_idem_of_sep _ _
    (cem_separated gs (Strategic.find_similar_classes gs)
      (Strategic.find_similar_properties gs []).1 hdisj) n

/-- Witness for C3: on a two-graph input with a single duplicate group the
disjointness hypothesis holds and the mapping is idempotent at Q. -/
theorem C3_witness :
    (Strategic.find_similar_classes [Ex.h0, Ex.h1] ++
      (Strategic.find_similar_properties [Ex.h0, Ex.h1] []).1).Pairwise groupsDisjoint
    ∧ Strategic.apply_mapping
        (Strategic.create_entity_mappings [] [] (Strategic.find_similar_classes [Ex.h0, Ex.h1])
          (Strategic.find_similar_properties [Ex.h0, Ex.h1] []).1 [Ex.h0, Ex.h1]).1
        (Strategic.create_entity_mappings [] [] (Strategic.find_similar_classes [Ex.h0, Ex.h1])
          (Strategic.find_similar_properties [Ex.h0, Ex.h1] []).1 [Ex.h0, Ex.h1]).2
        (Strategic.apply_mapping
          (Strategic.create_entity_mappings [] [] (Strategic.find_similar_classes [Ex.h0, Ex.h1])
            (Strategic.find_similar_properties [Ex.h0, Ex.h1] []).1 [Ex.h0, Ex.h1]).1
          (Strategic.create_entity_mappings [] [] (Strategic.find_similar_classes [Ex.h0, Ex.h1])
            (Strategic.find_similar_properties [Ex.h0, Ex.h1] []).1 [Ex.h0, Ex.h1]).2 Ex.Q) =
      Strategic.apply_mapping
        (Strategic.create_entity_mappings [] [] (Strategic.find_similar_classes [Ex.h0, Ex.h1])
          (Strategic.find_similar_properties [Ex.h0, Ex.h1] []).1 [Ex.h0, Ex.h1]).1
        (Strategic.create_entity_mappings [] [] (Strategic.find_similar_classes [Ex.h0, Ex.h1])
          (Strategic.find_similar_properties [Ex.h0, Ex.h1] []).1 [Ex.h0, Ex.h1]).2 Ex.Q := by
  constructor
  · decide
  · exact C3_mapping_idempotent_of_disjoint_groups [Ex.h0, Ex.h1] (by decide) Ex.Q

/-- C4 (counterexample): the claimed once-per-node bonus differs from the
source score.  In the gamma group, P accrues its label bonus once per graph
(score 8 against a claimed 6), so the source picks P although Q is the
member with the highest claimed score (7). -/
theorem C4_counterexample :
    Strategic.entityScore [Ex.h0, Ex.h1] Ex.P = 8
    ∧ specScoreOncePerNode [Ex.h0, Ex.h1] Ex.P = 6
    ∧ Strategic.entityScore [Ex.h0, Ex.h1] Ex.Q = 7
    ∧ specScoreOncePerNode [Ex.h0, Ex.h1] Ex.Q = 7
    ∧ Strategic.entityScore [Ex.h0, Ex.h1] Ex.P ≠ specScoreOncePerNode [Ex.h0, Ex.h1] Ex.P
    ∧ Strategic.find_similar_classes [Ex.h0, Ex.h1] = [("gamma", [Ex.P, Ex.Q])]
    ∧ Strategic.choose_canonical_entity [Ex.P, Ex.Q] [Ex.h0, Ex.h1] = Ex.P
    ∧ specScoreOncePerNode [Ex.h0, Ex.h1] Ex.P < specScoreOncePerNode [Ex.h0, Ex.h1] Ex.Q
    ∧ Ex.P ≠ Ex.Q := by
  decide

/-- C4 (amended): the score of a candidate is the sum, over the source
graphs, of its subject-statement count plus a bonus of 2 for each graph in
which it has a label and 2 for each graph in which it has a comment (the
bonuses accrue per graph, not once per node); the chosen canonical is a
group member attaining the maximal score. -/
theorem C4_score_per_graph_and_max (gs : List Graph) (e0 : Term) (rest : List Term) :
    (∀ e, Strategic.entityScore gs e =
      (gs.map (fun g => (g.filter (fun t => decide (t.subj = e))).length +
        Strategic.labelBonus g e + Strategic.commentBonus g e)).sum)
    ∧ Strategic.choose_canonical_entity (e0 :: rest) gs ∈ e0 :: rest
    ∧ ∀ y ∈ e0 :: rest,
        Strategic.entityScore gs y ≤
          Strategic.entityScore gs (Strategic.choose_canonical_entity (e0 :: rest) gs) := by
  refine ⟨?_, ?_, ?_⟩
  · intro e
    exact entityScore_eq_sum gs e
  · exact choose_canonical_mem (e0 :: rest) gs (by simp)
  · exact choose_canonical_le (e0 :: rest) gs

/-- Witness for C4: on the gamma group, the chosen canonical P is a member
and its score bounds the score of Q. -/
theorem C4_witness :
    Strategic.choose_canonical_entity [Ex.P, Ex.Q] [Ex.h0, Ex.h1] ∈ [Ex.P, Ex.Q]
    ∧ Strategic.entityScore [Ex.h0, Ex.h1] Ex.Q ≤
        Strategic.entityScore [Ex.h0, Ex.h1]
          (Strategic.choose_canonical_entity [Ex.P, Ex.Q] [Ex.h0, Ex.h1]) :=
  ⟨(C4_score_per_graph_and_max [Ex.h0, Ex.h1] Ex.P [Ex.Q]).2.1,
   (C4_score_per_graph_and_max [Ex.h0, Ex.h1] Ex.P [Ex.Q]).2.2 Ex.Q (by decide)⟩

/-- C5 (counterexample): two linearizations of the same two-member group
with tied scores yield different canonical nodes, so the result depends on
the iteration order of the Python member set (which is not the first-seen
order of the group and is not stable across processes). -/
theorem C5_counterexample :
    Strategic.choose_canonical_entity [Ex.a, Ex.b] [Ex.gt] = Ex.a
    ∧ Strategic.choose_canonical_entity [Ex.b, Ex.a] [Ex.gt] = Ex.b
    ∧ Ex.a ≠ Ex.b
    ∧ Strategic.entityScore [Ex.gt] Ex.a = Strategic.entityScore [Ex.gt] Ex.b
    ∧ [Ex.a, Ex.b].Perm [Ex.b, Ex.a] := by
  refine ⟨by decide, by decide, by decide, by decide, ?_⟩
  exact List.Perm.swap Ex.b Ex.a []

/-- C5 (amended): the Canonical Selector returns exactly the first member,
in the member order it receives from the set iteration, whose score attains
the maximum; it is therefore a deterministic function of that order, but
ties are broken by set-iteration order rather than first-seen order. -/
theorem C5_first_max_in_received_order (gs : List Graph) (e : Term) (rest : List Term) :
    firstAttainingMax (Strategic.entityScore gs) (e :: rest) =
      some (Strategic.choose_canonical_entity (e :: rest) gs) :=
  firstAttainingMax_cons (Strategic.entityScore gs) e rest

/-- C6: the pattern matcher is dead code.  Every backward token of the table
contains an uppercase letter, but it is substituted into, and searched
within, lowercased names, so find_inverse_candidates returns no candidate
for any input; in particular the claimed forward and backward matches of
detects/detectedBy never happen, and the inverse_properties table is never
extended. -/
theorem C6_inverse_candidates_always_empty :
    (∀ (prop_name : String) (m : List (String × List Strategic.PropEntry)),
      Strategic.find_inverse_candidates prop_name m = [])
    ∧ Strategic.find_inverse_candidates "detectsDrowsiness" Ex.invTable = []
    ∧ Strategic.find_inverse_candidates "drowsinessDetectedBy"
        [("y", [⟨Ex.p2, 0, none, "detectsDrowsiness"⟩])] = []
    ∧ ∀ (gs : List Graph) (inv0 : TMap),
        (Strategic.find_similar_properties gs inv0).2 = inv0 :=
  ⟨find_inverse_candidates_nil,
   find_inverse_candidates_nil _ _,
   find_inverse_candidates_nil _ _,
   find_similar_properties_inv_unchanged⟩

/-- C7 (counterexample): a source graph carrying an owl:inverseOf statement
between two properties that are merged into one canonical property yields a
self-inverse statement (pp, owl:inverseOf, pp) in the returned MergedGraph. -/
theorem C7_counterexample :
    (⟨Ex.pp, owlInverseOf, Ex.pp⟩ : Triple) ∈ Ex.runInv.1.merged
    ∧ Ex.runInv.2 = some Ex.runInv.1.merged
    ∧ alistLookup Ex.runInv.1.property_mappings Ex.qq = some Ex.pp
    ∧ (⟨Ex.pp, owlInverseOf, Ex.pp⟩ : Triple) ∉ Ex.g2 := by
  decide

/-- C7 (amended): the Inverse-Relation Inferencer itself never adds a
self-inverse statement — every triple it adds has predicate owl:inverseOf
and distinct subject and object (candidate pairs mapped to one canonical
property are dropped); a self-inverse statement in the MergedGraph can only
be a rewritten copy of a source statement. -/
theorem C7_inferencer_never_adds_self_inverse (cm pm inv : TMap) (acc : Graph)
    (t : Triple) (h : t ∈ Strategic.add_inverse_property_declarations cm pm inv acc) :
    t ∈ acc ∨ (t.pred = owlInverseOf ∧ t.subj ≠ t.obj) := by
  rcases aipd_mem cm pm inv acc t h with h' | ⟨kv, _, heq, hne⟩
  · exact Or.inl h'
  · refine Or.inr ⟨?_, ?_⟩
    · rw [heq]
    · rw [heq]
      exact hne

/-- Witness for C7: the declaration added for the pair (pp, qq) under empty
mappings has distinct ends. -/
theorem C7_witness :
    (⟨Ex.pp, owlInverseOf, Ex.qq⟩ : Triple) ∈
      Strategic.add_inverse_property_declarations [] [] [(Ex.pp, Ex.qq)] []
    ∧ ((⟨Ex.pp, owlInverseOf, Ex.qq⟩ : Triple) ∈ ([] : Graph) ∨
        ((⟨Ex.pp, owlInverseOf, Ex.qq⟩ : Triple).pred = owlInverseOf ∧
         (⟨Ex.pp, owlInverseOf, Ex.qq⟩ : Triple).subj ≠ (⟨Ex.pp, owlInverseOf, Ex.qq⟩ : Triple).obj)) :=
  ⟨by decide,
   C7_inferencer_never_adds_self_inverse [] [] [(Ex.pp, Ex.qq)] []
     ⟨Ex.pp, owlInverseOf, Ex.qq⟩ (by decide)⟩

/-- C8 (counterexample): merging an empty source list returns the merged
graph still holding the ontology declaration triple added by the
constructor: 1 statement, and the reported total_triples count is 1, not
0. -/
theorem C8_counterexample :
    Ex.runEmpty.2 = some Ex.runEmpty.1.merged
    ∧ Ex.runEmpty.1.merged.length = 1
    ∧ (Strategic.get_statistics Ex.runEmpty.1).total_triples = 1 := by
  decide

/-- C8 (amended): merging an empty source list raises no error and returns
the merged graph containing exactly the ontology declaration triple; every
entity and mapping count is 0 and the total statement count is 1. -/
theorem C8_empty_merge (base : String) :
    (Strategic.merge_ontologies (Strategic.initState base) []).2 =
      some [⟨Strategic.ontologyUri base, rdfType, owlOntology⟩]
    ∧ Strategic.get_statistics (Strategic.merge_ontologies (Strategic.initState base) []).1 =
      ⟨0, 0, 0, 0, 0, 0, 1⟩ := by
  constructor
  · rfl
  · rfl

/-- C1 (counterexample): with the overlapping-group input, the MergedGraph
after the Rewriter contains statements referencing X, which is a
non-canonical member of the alpha DuplicateGroup; and in the improved
merger, a mapped property used as a predicate is not rewritten at all, so
the merged graph keeps the non-canonical predicate p1i. -/
theorem C1_counterexample :
    (⟨Ex.X, rdfType, owlClass⟩ : Triple) ∈ Ex.runOverlap.1.merged
    ∧ Ex.runOverlap.2 = some Ex.runOverlap.1.merged
    ∧ Strategic.find_similar_classes [Ex.g0, Ex.g1] =
        [("alpha", [Ex.A, Ex.X]), ("beta", [Ex.X, Ex.Y])]
    ∧ Strategic.choose_canonical_entity [Ex.A, Ex.X] [Ex.g0, Ex.g1] = Ex.A
    ∧ Ex.X ≠ Ex.A
    ∧ alistLookup Ex.runImp.1.entity_mappings Ex.p1i = some Ex.p2i
    ∧ (⟨Ex.xs, Ex.p1i, Ex.ys⟩ : Triple) ∈ Ex.runImp.1.merged
    ∧ Ex.p1i ≠ Ex.p2i := by
  decide

/-- C1 (amended): every statement the Rewriter adds is exactly the mapped
triple — mapping applied to subject, predicate and URI objects, literals
passed through — and, provided no mapping value is itself a mapping key and
the initial merged graph references no key, the graph after the Rewriter
runs references no key of the EntityMapping (no merged-away node). -/
theorem C1_rewriter_shape_and_no_dangling
    (cm pm : TMap) (init : Graph) (gs : List Graph)
    (hsep : valsKeysSeparated cm pm)
    (huris : ∀ k ∈ alistKeys cm ++ alistKeys pm, k.isUri = true)
    (hinit : ∀ t ∈ init, ∀ k ∈ alistKeys cm ++ alistKeys pm,
      t.subj ≠ k ∧ t.pred ≠ k ∧ t.obj ≠ k) :
    (∀ (acc g : Graph) (t' : Triple),
      t' ∈ Strategic.add_graph_with_mappings cm pm acc g ↔
        t' ∈ acc ∨ ∃ t ∈ g, t' = Strategic.mapTriple cm pm t)
    ∧ (∀ s p v lg, Strategic.mapTriple cm pm ⟨s, p, Term.lit v lg⟩ =
        ⟨Strategic.apply_mapping cm pm s, Strategic.apply_mapping cm pm p, Term.lit v lg⟩)
    ∧ (∀ s p o, o.isUri = true → Strategic.mapTriple cm pm ⟨s, p, o⟩ =
        ⟨Strategic.apply_mapping cm pm s, Strategic.apply_mapping cm pm p,
         Strategic.apply_mapping cm pm o⟩)
    ∧ (∀ t ∈ gs.foldl (fun a g => Strategic.add_graph_with_mappings cm pm a g) init,
        ∀ k ∈ alistKeys cm ++ alistKeys pm,
          t.subj ≠ k ∧ t.pred ≠ k ∧ t.obj ≠ k) := by
  refine ⟨agm_mem_iff cm pm, ?_, ?_, ?_⟩
  · intro s p v lg
    rfl
  · intro s p o ho
    unfold Strategic.mapTriple
    rw [if_pos ho]
  · intro t ht k hk
    have hk' : k ∈ alistKeys cm ∨ k ∈ alistKeys pm := List.mem_append.mp hk
    rcases (fold_agm_mem_iff cm pm gs init t).mp ht with h' | ⟨g, hg, u, hu, rfl⟩
    · exact hinit t h' k hk
    · refine ⟨?_, ?_, ?_⟩
      · exact apply_mapping_ne_key cm pm hsep u.subj k hk'
      · exact apply_mapping_ne_key cm pm hsep u.pred k hk'
      · show (if u.obj.isUri then Strategic.apply_mapping cm pm u.obj else u.obj) ≠ k
        by_cases hb : u.obj.isUri = true
        · rw [if_pos hb]
          exact apply_mapping_ne_key cm pm hsep u.obj k hk'
        · rw [if_neg hb]
          intro he
          apply hb
          rw [he]
          exact huris k hk

/-- Witness for C1: a one-entry class mapping on a one-triple source; the
rewritten graph references no key of the mapping. -/
theorem C1_witness :
    valsKeysSeparated [(Ex.X, Ex.A)] []
    ∧ ((⟨Ex.A, rdfType, owlClass⟩ : Triple).subj ≠ Ex.X
       ∧ (⟨Ex.A, rdfType, owlClass⟩ : Triple).pred ≠ Ex.X
       ∧ (⟨Ex.A, rdfType, owlClass⟩ : Triple).obj ≠ Ex.X) :=
  ⟨by decide,
   (C1_rewriter_shape_and_no_dangling [(Ex.X, Ex.A)] [] []
      [[⟨Ex.X, rdfType, owlClass⟩]] (by decide) (by decide) (by decide)).2.2.2
     ⟨Ex.A, rdfType, owlClass⟩ (by decide) Ex.X (by decide)⟩

/-- C2: union preservation.  For a merge from a fresh engine, every source
statement appears in the returned MergedGraph in fully mapped form; in
particular, wherever a mapped node n occurred as subject, predicate, or URI
object, the merged statement carries its canonical node c. -/
theorem C2_union_preservation (base : String) (sources : List (Option Graph))
    (st' : Strategic.MergerState) (out : Graph) (g : Graph) (t : Triple) (n c : Term)
    (hrun : Strategic.merge_ontologies (Strategic.initState base) sources = (st', some out))
    (hg : some g ∈ sources) (ht : t ∈ g)
    (hkey : n ∈ alistKeys st'.class_mappings ∨ n ∈ alistKeys st'.property_mappings)
    (hmap : Strategic.apply_mapping st'.class_mappings st'.property_mappings n = c) :
    Strategic.mapTriple st'.class_mappings st'.property_mappings t ∈ out
    ∧ (t.subj = n →
        (Strategic.mapTriple st'.class_mappings st'.property_mappings t).subj = c)
    ∧ (t.pred = n →
        (Strategic.mapTriple st'.class_mappings st'.property_mappings t).pred = c)
    ∧ (t.obj = n →
        (Strategic.mapTriple st'.class_mappings st'.property_mappings t).obj = c) := by
  cases hpa : Strategic.parseAll sources with
  | none =>
    unfold Strategic.merge_ontologies at hrun
    rw [hpa] at hrun
    have := congrArg Prod.snd hrun
    simp at this
  | some gs =>
    unfold Strategic.merge_ontologies at hrun
    rw [hpa] at hrun
    have h1 := congrArg Prod.fst hrun
    have h2 := congrArg Prod.snd hrun
    simp only at h1 h2
    have h2' : _ = out := Option.some.inj h2
    have huri : n.isUri = true := by
      rcases hkey with hk | hk
      · rw [← h1] at hk
        rcases cem_fold_keys gs (Strategic.find_similar_classes gs) [] n hk with h' | ⟨kv, hkv, hmem, _⟩
        · simp [alistKeys] at h'
        · exact find_similar_classes_members_uri gs kv hkv n hmem
      · rw [← h1] at hk
        rcases cem_fold_keys gs (Strategic.find_similar_properties gs []).1 [] n hk with h' | ⟨kv, hkv, hmem, _⟩
        · simp [alistKeys] at h'
        · exact find_similar_props_members_uri gs [] kv hkv n hmem
    refine ⟨?_, ?_, ?_, ?_⟩
    · rw [← h2', ← h1]
      apply aipd_mono
      apply (fold_agm_mem_iff _ _ gs _ _).mpr
      exact Or.inr ⟨g, parseAll_mem sources gs g hpa hg, t, ht, rfl⟩
    · intro hs
      show Strategic.apply_mapping st'.class_mappings st'.property_mappings t.subj = c
      rw [hs]
      exact hmap
    · intro hp
      show Strategic.apply_mapping st'.class_mappings st'.property_mappings t.pred = c
      rw [hp]
      exact hmap
    · intro ho
      show (if t.obj.isUri then
        Strategic.apply_mapping st'.class_mappings st'.property_mappings t.obj else t.obj) = c
      rw [ho, if_pos huri]
      exact hmap

/-- Witness for C2: in the overlapping-group run, the statement
(Y, rdf:type, owl:Class) of the second source appears in the result with the
canonical X substituted for Y. -/
theorem C2_witness :
    Strategic.mapTriple Ex.runOverlap.1.class_mappings Ex.runOverlap.1.property_mappings
      ⟨Ex.Y, rdfType, owlClass⟩ ∈ Ex.runOverlap.1.merged
    ∧ (Strategic.mapTriple Ex.runOverlap.1.class_mappings Ex.runOverlap.1.property_mappings
        ⟨Ex.Y, rdfType, owlClass⟩).subj = Ex.X :=
  ⟨(C2_union_preservation Strategic.baseUri [some Ex.g0, some Ex.g1]
      Ex.runOverlap.1 Ex.runOverlap.1.merged Ex.g1 ⟨Ex.Y, rdfType, owlClass⟩ Ex.Y Ex.X
      (by decide) (by decide) (by decide) (by decide) (by decide)).1,
   (C2_union_preservation Strategic.baseUri [some Ex.g0, some Ex.g1]
      Ex.runOverlap.1 Ex.runOverlap.1.merged Ex.g1 ⟨Ex.Y, rdfType, owlClass⟩ Ex.Y Ex.X
      (by decide) (by decide) (by decide) (by decide) (by decide)).2.1 rfl⟩

/-- C9 (counterexample): one unparseable source aborts the entire strategic
merge, which returns no result, although the remaining sources alone would
merge successfully. -/
theorem C9_counterexample :
    (Strategic.merge_ontologies (Strategic.initState Strategic.baseUri)
      [some Ex.h0, none, some Ex.h1]).2 = none
    ∧ ((Strategic.merge_ontologies (Strategic.initState Strategic.baseUri)
      [some Ex.h0, some Ex.h1]).2).isSome = true := by
  decide

/-- C9 (amended): StrategicOntologyMerger.merge_ontologies aborts and
returns no result whenever any source fails to parse, and returns a merged
graph exactly when every source parses; ImprovedOntologyMerger, by
contrast, skips failing sources (its result equals the merge of the parsing
sources) and always returns a result. -/
theorem C9_parse_failure_behavior :
    (∀ (st : Strategic.MergerState) (sources : List (Option Graph)),
      none ∈ sources → Strategic.merge_ontologies st sources = (st, none))
    ∧ (∀ (st : Strategic.MergerState) (sources : List (Option Graph)),
        (∀ s ∈ sources, s.isSome) → ∃ g, (Strategic.merge_ontologies st sources).2 = some g)
    ∧ (∀ (base : String) (st : Improved.IState) (sources : List (Option Graph)),
        Improved.merge_ontologies base st sources =
          Improved.merge_ontologies base st (sources.filter Option.isSome))
    ∧ (∀ (base : String) (st : Improved.IState) (sources : List (Option Graph)),
        (Improved.merge_ontologies base st sources).2 =
          some (Improved.merge_ontologies base st sources).1.merged) := by
  refine ⟨?_, ?_, ?_, ?_⟩
  · intro st sources h
    unfold Strategic.merge_ontologies
    rw [parseAll_none_of_mem sources h]
  · intro st sources h
    obtain ⟨gs, hgs⟩ := parseAll_some_of_all sources h
    unfold Strategic.merge_ontologies
    rw [hgs]
    exact ⟨_, rfl⟩
  · intro base st sources
    unfold Improved.merge_ontologies Improved.mergedState
    rw [improved_fold_skip]
  · intro base st sources
    rfl

/-- Witness for C9: a concrete aborted merge and a concrete successful
merge. -/
theorem C9_witness :
    Strategic.merge_ontologies (Strategic.initState Strategic.baseUri)
      [some Ex.h0, none] = (Strategic.initState Strategic.baseUri, none)
    ∧ ∃ g, (Strategic.merge_ontologies (Strategic.initState Strategic.baseUri)
        [some Ex.h0]).2 = some g :=
  ⟨C9_parse_failure_behavior.1 (Strategic.initState Strategic.baseUri)
      [some Ex.h0, none] (by decide),
   C9_parse_failure_behavior.2.1 (Strategic.initState Strategic.baseUri)
      [some Ex.h0] (by decide)⟩

/-- C10: the strategic merger clears nothing at the start of a merge call:
the result of a second call on the same engine still contains the statements
of the first call's source, which the second call's sources do not contain.
The improved merger does reset, and its second call drops them. -/
theorem C10_state_not_cleared :
    (⟨Ex.a, Ex.pa, Term.lit "v" none⟩ : Triple) ∈ Ex.callTwo.1.merged
    ∧ Ex.callTwo.2 = some Ex.callTwo.1.merged
    ∧ (⟨Ex.a, Ex.pa, Term.lit "v" none⟩ : Triple) ∉ Ex.gB
    ∧ Ex.callOne.1.merged.all (fun t => decide (t ∈ Ex.callTwo.1.merged)) = true
    ∧ (⟨Ex.a, Ex.pa, Term.lit "v" none⟩ : Triple) ∈ Ex.iCallOne.1.merged
    ∧ (⟨Ex.a, Ex.pa, Term.lit "v" none⟩ : Triple) ∉ Ex.iCallTwo.1.merged := by
  decide
